import Mathlib

/-!
# Verification of the Finance_Advisor document field extraction engine

Shallow embedding of the Python sources `src/sfa_utils/normalizers.py`,
`src/parser/doc_type.py`, `src/parser/lineitems.py` and
`src/parser/extractor.py`, together with theorems settling the claims
about the natural-language specification.

Modelling conventions:
* Python strings are `String` / `List Char`; all inputs in scope are ASCII
  plus the currency signs `€` and `₹`.
* Python floats are modelled as exact rationals `ℚ`.  Every numeric value
  that the claims inspect is parsed from a short decimal literal, where
  float conversion is exact enough that ordering and equality agree with
  the rational reading.
* Python regexes are embedded as executable Lean parsers that reproduce
  the backtracking (leftmost match, greedy/lazy, priority alternation)
  semantics of the `re` module on the concrete patterns of the source.
* `None` is `Option.none`; functions that cannot raise are total.
-/

namespace FinanceAdvisor

/-! ## String preliminaries (Python `str` helpers) -/

/-- Python `\s` for the ASCII range: space, tab, newline, CR, VT, FF. -/
def isPySpace (c : Char) : Bool :=
  c == ' ' || c == '\t' || c == '\n' || c == '\r' || c == '\x0b' || c == '\x0c'

/-- ASCII lower-casing, as Python `str.lower` acts on the inputs in scope. -/
def lowerChar (c : Char) : Char :=
  if 'A' ≤ c ∧ c ≤ 'Z' then Char.ofNat (c.toNat + 32) else c

/-- ASCII upper-casing (Python `str.upper`). -/
def upperChar (c : Char) : Char :=
  if 'a' ≤ c ∧ c ≤ 'z' then Char.ofNat (c.toNat - 32) else c

def lowerStr (s : List Char) : List Char := s.map lowerChar

def upperStr (s : List Char) : List Char := s.map upperChar

/-- Python `str.strip()` (whitespace from both ends). -/
def pyStrip (s : List Char) : List Char :=
  ((s.dropWhile isPySpace).reverse.dropWhile isPySpace).reverse

/-- Python substring containment `needle in hay`. -/
def containsSub : List Char → List Char → Bool
  | hay, needle =>
    if needle.isPrefixOf hay then true
    else match hay with
      | [] => false
      | _ :: rest => containsSub rest needle

/-- Split a character list at every newline (keeping empty segments). -/
def splitOnNl : List Char → List (List Char)
  | [] => [[]]
  | c :: rest =>
    if c = '\n' then [] :: splitOnNl rest
    else
      match splitOnNl rest with
      | [] => [[c]]
      | l :: ls => (c :: l) :: ls

/-- Python `text.splitlines()` for texts whose line breaks are `'\n'`:
split on newlines, without a trailing empty line. -/
def pySplitlines (s : List Char) : List (List Char) :=
  if s = [] then []
  else
    let parts := splitOnNl s
    if parts.getLast? = some [] then parts.dropLast else parts

/-- Value of a list of decimal digits. -/
def digitsVal (l : List Char) : ℕ :=
  l.foldl (fun acc c => 10 * acc + (c.toNat - '0'.toNat)) 0

/-- Exact rational value of a signed decimal literal
`[-] intDigits . decDigits` (built with `mkRat`, which the kernel can
evaluate, rather than with rational division). -/
def signedDecimalVal (neg : Bool) (intDigits decDigits : List Char) : ℚ :=
  mkRat ((if neg then -1 else 1) *
          ((digitsVal intDigits * 10 ^ decDigits.length + digitsVal decDigits : ℕ) : ℤ))
        (10 ^ decDigits.length)

/-- Rational value of a decimal literal `intDigits ++ "." ++ decDigits`. -/
def decimalVal (intDigits decDigits : List Char) : ℚ :=
  signedDecimalVal false intDigits decDigits

/-- The sign-free part of `parsePyFloat`: digits, optionally followed by
a decimal point and digits (at least one digit overall). -/
def parsePyFloatAux (neg : Bool) (t : List Char) : Option ℚ :=
  match t.drop (t.takeWhile Char.isDigit).length with
  | [] =>
    if t.takeWhile Char.isDigit = [] then none
    else some (signedDecimalVal neg (t.takeWhile Char.isDigit) [])
  | '.' :: r =>
    if r.drop (r.takeWhile Char.isDigit).length ≠ [] then none
    else if t.takeWhile Char.isDigit = [] ∧ r.takeWhile Char.isDigit = [] then none
    else some (signedDecimalVal neg (t.takeWhile Char.isDigit) (r.takeWhile Char.isDigit))
  | _ => none

/-- Python `float(str)` on the token shapes produced by the source:
optional minus sign, then digits with at most one decimal point
(at least one digit overall).  Anything else yields `none`
(Python raises `ValueError`, which callers turn into `None`/`0.0`). -/
def parsePyFloat (s : List Char) : Option ℚ :=
  match s with
  | [] => parsePyFloatAux false []
  | c :: r => if c = '-' then parsePyFloatAux true r else parsePyFloatAux false (c :: r)

/-! ## `sfa_utils/normalizers.py` — currency OCR fix -/

/-- The look-behind class of `_CURRENCY_OCR_FIX`: `[A-Za-z0-9$€₹.,]`. -/
def ocrFixBlocked (c : Char) : Bool :=
  c.isAlpha || c.isDigit || c == '$' || c == '€' || c == '₹' || c == '.' || c == ','

/-- Look-ahead `(?=\s?\d)` of `_CURRENCY_OCR_FIX`. -/
def ocrFixAhead : List Char → Bool
  | [] => false
  | d :: rest =>
    d.isDigit || (isPySpace d && (match rest with | [] => false | e :: _ => e.isDigit))

/-- `_CURRENCY_OCR_FIX.sub("$", s)`: replace a leading `S`/`5` of an amount
token by `$`.  The look-behind inspects the original character, as `re.sub`
does. -/
def fixCurrencyOcrAux : Option Char → List Char → List Char
  | _, [] => []
  | prev, c :: rest =>
    if (c == 'S' || c == '5')
        && (match prev with | none => true | some p => !ocrFixBlocked p)
        && ocrFixAhead rest
    then '$' :: fixCurrencyOcrAux (some c) rest
    else c :: fixCurrencyOcrAux (some c) rest

/-- `_fix_currency_ocr` from `sfa_utils/normalizers.py`. -/
def fixCurrencyOcr (s : List Char) : List Char :=
  fixCurrencyOcrAux none s

/-! ## `sfa_utils/normalizers.py` — amount normalization -/

/-- The `Amount` dataclass: `{raw, value, currency}`. -/
structure Amount where
  raw : String
  value : Option ℚ
  currency : Option String
  deriving Repr, DecidableEq

/-- `CURRENCY_MAP` from the source. -/
def CURRENCY_MAP : List (String × String) :=
  [("$", "USD"), ("US$", "USD"), ("USD", "USD"),
   ("€", "EUR"), ("EUR", "EUR"), ("₹", "INR"), ("INR", "INR")]

/-- Case-insensitive literal prefix; returns the matched original
characters and the rest. -/
def matchLitCI (lit : List Char) (s : List Char) : Option (List Char × List Char) :=
  match lit, s with
  | [], r => some ([], r)
  | _, [] => none
  | a :: la, c :: r =>
    if lowerChar a == lowerChar c then
      (matchLitCI la r).map (fun (m, rest) => (c :: m, rest))
    else none

/-- The alternation `US\$|USD|EUR|INR|[$€₹]` of `CUR_RX`, in source order. -/
def curAlt (s : List Char) : Option (List Char × List Char) :=
  (matchLitCI "US$".data s) <|> (matchLitCI "USD".data s) <|>
  (matchLitCI "EUR".data s) <|> (matchLitCI "INR".data s) <|>
  (match s with
   | c :: r => if c == '$' || c == '€' || c == '₹' then some ([c], r) else none
   | [] => none)

/-- `\s*(?P<num>.*)$` (no MULTILINE, no DOTALL): after a maximal run of
whitespace, `.*` cannot cross a newline and `$` only matches at the end or
just before a final newline. -/
def dollarTail (t : List Char) : Option (List Char) :=
  let r := t.dropWhile isPySpace
  if r.contains '\n' then
    if r.count '\n' = 1 ∧ r.getLast? = some '\n' then some r.dropLast else none
  else some r

/-- `CUR_RX.match(s)`: leading whitespace, a currency token, whitespace,
then the `num` group.  Returns `(matched currency token, num group)`. -/
def curMatch (s : List Char) : Option (List Char × List Char) :=
  let r1 := s.dropWhile isPySpace
  match curAlt r1 with
  | none => none
  | some (tok, r2) => (dollarTail r2).map (fun num => (tok, num))

/-- Greedy `(?:,\d{3})*`: all parses, as many `,ddd` groups as possible
first.  Returns `(consumed, rest)` in backtracking priority order. -/
def commaGroupsParses (r : List Char) (fuel : ℕ) : List (List Char × List Char) :=
  match fuel with
  | 0 => [([], r)]
  | fuel + 1 =>
    match r with
    | ',' :: r' =>
      if (r'.takeWhile Char.isDigit).length ≥ 3 then
        ((commaGroupsParses (r'.drop 3) fuel).map
          (fun cr => (',' :: r'.take 3 ++ cr.1, cr.2))) ++ [([], r)]
      else [([], r)]
    | _ => [([], r)]

/-- All parses of `\d{1,3}(?:,\d{3})*` at the head of `l`, in backtracking
priority order (both repetitions greedy).  Returns `(consumed, rest)`. -/
def groupedIntParses (l : List Char) : List (List Char × List Char) :=
  let ks := (List.range (min (l.takeWhile Char.isDigit).length 3)).map
    (fun i => min (l.takeWhile Char.isDigit).length 3 - i)
  ks.flatMap (fun k =>
    (commaGroupsParses (l.drop k) (l.drop k).length).map
      (fun cr => (l.take k ++ cr.1, cr.2)))

/-- `\.\d{2}` at the head of `l`. -/
def decParse (l : List Char) : Option (List Char × List Char) :=
  match l with
  | '.' :: a :: b :: r => if a.isDigit && b.isDigit then some (['.', a, b], r) else none
  | _ => none

/-- Tail `\s*\)?\s*$` of `NUM_RX` (the trailing `\s*` also absorbs a final
newline, so plain end-of-input is equivalent). -/
def numRxTail (l : List Char) : Bool :=
  let r := l.dropWhile isPySpace
  let r2 := match r with | ')' :: r' => r' | _ => r
  r2.dropWhile isPySpace = []

/-- `NUM_RX.match`: `^\s*([-(]?)\s*(\d{1,3}(?:,\d{3})*|\d+)(\.\d{2})?\s*\)?\s*$`.
Returns `(sign group, int group, dec group)` of the first successful parse in
backtracking order. -/
def numRxMatch (s : List Char) : Option (List Char × List Char × List Char) :=
  let t0 := s.dropWhile isPySpace
  let (sign, t1) := match t0 with
    | '-' :: r => (['-'], r)
    | '(' :: r => (['('], r)
    | r => (([] : List Char), r)
  let t2 := t1.dropWhile isPySpace
  -- int alternatives in priority order: grouped form first, then `\d+`
  let run := t2.takeWhile Char.isDigit
  let plainAlt : List (List Char × List Char) :=
    if run = [] then [] else [(run, t2.drop run.length)]
  let alts := groupedIntParses t2 ++ plainAlt
  let tryDec (intPart : List Char) (rest : List Char) :
      Option (List Char × List Char × List Char) :=
    match decParse rest with
    | some (dec, r') =>
      if numRxTail r' then some (sign, intPart, dec)
      else if numRxTail rest then some (sign, intPart, []) else none
    | none => if numRxTail rest then some (sign, intPart, []) else none
  alts.findSome? (fun (intPart, rest) =>
    if intPart = [] then none else tryDec intPart rest)

/-- The sign-free body of `dotCoreAt`: an int-with-commas parse followed
by `\.\d{2}`, the sign characters (already consumed) prepended. -/
def dotCoreAux (sgn t : List Char) : Option (List Char) :=
  (groupedIntParses t).findSome? (fun pr =>
    if pr.1 = [] then none
    else (decParse pr.2).map (fun dr => sgn ++ pr.1 ++ dr.1))

/-- One attempt of the fallback-1 pattern `-?\d{1,3}(?:,\d{3})*(?:\.\d{2})`
at a fixed position; returns the matched text (group 0).  When the position
starts with `-` and the rest fails, the empty `-?` alternative also fails
because `\d` cannot match `-`, so a single attempt suffices. -/
def dotCoreAt (l : List Char) : Option (List Char) :=
  match l with
  | [] => dotCoreAux [] []
  | c :: r => if c = '-' then dotCoreAux ['-'] r else dotCoreAux [] (c :: r)

/-- `re.search` of the fallback-1 pattern: leftmost position first. -/
def dotSearch : List Char → Option (List Char)
  | [] => none
  | l@(_ :: rest) =>
    match dotCoreAt l with
    | some m => some m
    | none => dotSearch rest

/-- One attempt of the fallback-2 pattern `-?\d{1,3}(?:,\d{3})*,\d{2}` at a
fixed position. -/
def commaCoreAt (l : List Char) : Option (List Char) :=
  let (sgn, t) := match l with
    | '-' :: r => (['-'], r)
    | r => (([] : List Char), r)
  (groupedIntParses t).findSome? (fun (ip, rest) =>
    if ip = [] then none
    else match rest with
      | ',' :: a :: b :: _ =>
        if a.isDigit && b.isDigit then some (sgn ++ ip ++ [',', a, b]) else none
      | _ => none)

/-- `re.search` of the fallback-2 pattern. -/
def commaSearch : List Char → Option (List Char)
  | [] => none
  | l@(_ :: rest) =>
    match commaCoreAt l with
    | some m => some m
    | none => commaSearch rest

/-- Python `token.rsplit(",", 1)` on a token known to contain a comma,
followed by `int_part.replace(",", "") + "." + dec`. -/
def commaTokenToNum (token : List Char) : List Char :=
  let idx := token.length - 1 - ((token.reverse.findIdx? (· == ',')).getD 0)
  let intPart := token.take idx
  let dec := token.drop (idx + 1)
  intPart.filter (· ≠ ',') ++ '.' :: dec

/-- The prepared string `s = _fix_currency_ocr(str(raw)).strip()`. -/
def normPrep (raw : String) : List Char :=
  pyStrip (fixCurrencyOcr raw.data)

/-- The detected currency code (`CURRENCY_MAP.get(cur_token.upper())`). -/
def curOf (s : List Char) : Option String :=
  match curMatch s with
  | some (tok, _) => CURRENCY_MAP.lookup (String.mk (upperStr tok))
  | none => none

/-- The numeric part: the stripped `num` group if `CUR_RX` matched, else
the whole string. -/
def numPartOf (s : List Char) : List Char :=
  match curMatch s with
  | some (_, num) => pyStrip num
  | none => s

/-- Body of `normalize_amount` on the already-prepared (non-empty) text:
the strict `NUM_RX` parse, then the dot-decimal search, then the
comma-decimal search, else a null value. -/
def normAmountCore (s : List Char) : Amount :=
  match numRxMatch (numPartOf s) with
  | some (sign, intPart, dec) =>
    { raw := String.mk s,
      value := parsePyFloat
        ((if sign = ['-'] ∨ sign = ['('] then ['-'] else ([] : List Char)) ++
          (intPart ++ dec).filter (· ≠ ',')),
      currency := curOf s }
  | none =>
    match dotSearch (numPartOf s) with
    | some tok =>
      { raw := String.mk s,
        value := parsePyFloat
          ((if (pyStrip (numPartOf s)).head? = some '(' ∨
              (pyStrip (numPartOf s)).head? = some '-'
            then ['-'] else ([] : List Char)) ++ tok.filter (· ≠ ',')),
        currency := curOf s }
    | none =>
      match commaSearch (numPartOf s) with
      | some token =>
        { raw := String.mk s,
          value := parsePyFloat
            ((if (pyStrip token).head? = some '-' ∨
                (pyStrip (numPartOf s)).head? = some '('
              then ['-'] else ([] : List Char)) ++
              (commaTokenToNum token).filter (· ≠ ',')),
          currency := curOf s }
      | none => { raw := String.mk s, value := none, currency := curOf s }

/-- `normalize_amount` from `sfa_utils/normalizers.py`, for string input
(the `raw is None` short-circuit of the Python `Optional[str]` signature is
modelled by callers). -/
def normalize_amount (raw : String) : Amount :=
  if normPrep raw = [] then { raw := "", value := none, currency := none }
  else normAmountCore (normPrep raw)

/-! ## `sfa_utils/normalizers.py` — dates -/

/-- `MONTHS` table from the source. -/
def MONTHS : List (String × ℕ) :=
  [("JAN", 1), ("FEB", 2), ("MAR", 3), ("APR", 4), ("MAY", 5), ("JUN", 6),
   ("JUL", 7), ("AUG", 8), ("SEP", 9), ("SEPT", 9), ("OCT", 10), ("NOV", 11),
   ("DEC", 12)]

/-- `_clip_year` from the source. -/
def clip_year (y : ℕ) : ℕ :=
  if y < 100 then (if y < 70 then 2000 + y else 1900 + y) else y

/-- Gregorian leap year, as `datetime` uses. -/
def isLeap (y : ℕ) : Bool :=
  (y % 4 = 0 && y % 100 ≠ 0) || y % 400 = 0

def daysInMonth (y m : ℕ) : ℕ :=
  if m = 2 then (if isLeap y then 29 else 28)
  else if m = 4 ∨ m = 6 ∨ m = 9 ∨ m = 11 then 30
  else 31

/-- Validity of `datetime(y, m, d)` (`MINYEAR = 1`, `MAXYEAR = 9999`);
constructing an invalid date raises, which the source converts to `None`. -/
def validDate (y m d : ℕ) : Bool :=
  1 ≤ y && y ≤ 9999 && 1 ≤ m && m ≤ 12 && 1 ≤ d && d ≤ daysInMonth y m

/-- Zero-padded decimal rendering of width `w`, as `date.isoformat` emits. -/
def padNum (w n : ℕ) : String :=
  let s := toString n
  String.mk (List.replicate (w - s.length) '0') ++ s

/-- `datetime(y, m, d).date().isoformat()`: `YYYY-MM-DD`. -/
def isoFormat (y m d : ℕ) : String :=
  padNum 4 y ++ "-" ++ padNum 2 m ++ "-" ++ padNum 2 d

/-- A maximal digit run whose length must lie in `[lo, hi]`; with a
non-digit (or end) following the run, backtracking to a shorter take never
helps any of the date patterns, whose next element is never a digit. -/
def digitRunBetween (lo hi : ℕ) (l : List Char) : Option (List Char × List Char) :=
  let run := l.takeWhile Char.isDigit
  if lo ≤ run.length ∧ run.length ≤ hi then some (run, l.drop run.length) else none

/-- Trailing `\s*$` of the anchored date patterns (`$` may also stand
before a final newline, which `\s*` absorbs anyway). -/
def spacesThenEnd (l : List Char) : Bool :=
  l.dropWhile isPySpace = []

/-- `MDY_RX.match`: `^\s*(\d{1,2})[slash or dash](\d{1,2})[slash or dash](\d{2,4})\s*$`. -/
def mdyMatch (s : List Char) : Option (ℕ × ℕ × ℕ) := do
  let t := s.dropWhile isPySpace
  let (a, t) ← digitRunBetween 1 2 t
  let t ← match t with
    | c :: r => if c == '/' || c == '-' then some r else none
    | [] => none
  let (b, t) ← digitRunBetween 1 2 t
  let t ← match t with
    | c :: r => if c == '/' || c == '-' then some r else none
    | [] => none
  let (y, t) ← digitRunBetween 2 4 t
  if spacesThenEnd t then some (digitsVal a, digitsVal b, digitsVal y) else none

/-- `YMD_RX.match`: `^\s*(\d{4})[dot, slash or dash](\d{1,2})[dot, slash or dash](\d{1,2})\s*$`. -/
def ymdMatch (s : List Char) : Option (ℕ × ℕ × ℕ) := do
  let t := s.dropWhile isPySpace
  let (y, t) ← digitRunBetween 4 4 t
  let t ← match t with
    | c :: r => if c == '.' || c == '/' || c == '-' then some r else none
    | [] => none
  let (mo, t) ← digitRunBetween 1 2 t
  let t ← match t with
    | c :: r => if c == '.' || c == '/' || c == '-' then some r else none
    | [] => none
  let (d, t) ← digitRunBetween 1 2 t
  if spacesThenEnd t then some (digitsVal y, digitsVal mo, digitsVal d) else none

/-- `MON_D_Y_RX.match`: `^\s*([A-Za-z]{3,})\s+(\d{1,2}),?\s+(\d{2,4})\s*$`. -/
def monDYMatch (s : List Char) : Option (List Char × ℕ × ℕ) := do
  let t := s.dropWhile isPySpace
  let mon := t.takeWhile Char.isAlpha
  let t := t.drop mon.length
  if mon.length < 3 then none else do
  let sp := t.takeWhile isPySpace
  if sp = [] then none else do
  let t := t.drop sp.length
  let (d, t) ← digitRunBetween 1 2 t
  let t := match t with | ',' :: r => r | r => r
  let sp2 := t.takeWhile isPySpace
  if sp2 = [] then none else do
  let t := t.drop sp2.length
  let (y, t) ← digitRunBetween 2 4 t
  if spacesThenEnd t then some (mon, digitsVal d, digitsVal y) else none

/-- Month-name lookup: `MONTHS.get(m.group(1).strip().upper()[:4].rstrip("."))`
(the group is all letters, so `strip`/`rstrip` are identities). -/
def monthLookup (mon : List Char) : Option ℕ :=
  MONTHS.lookup (String.mk ((upperStr mon).take 4))

/-- The final `MDY_RX` stage of `to_iso_date`: if the first numeric group
exceeds 12 and the second does not, the first is the day
(`d, mon = a, b`), else `mon, d = a, b`; then `datetime(y, mon, d)`. -/
def mdyResolve (s : List Char) : Option String :=
  match mdyMatch s with
  | some (a, b, yr) =>
    if a > 12 ∧ b ≤ 12 then
      if validDate (clip_year yr) b a then some (isoFormat (clip_year yr) b a)
      else none
    else
      if validDate (clip_year yr) a b then some (isoFormat (clip_year yr) a b)
      else none
  | none => none

/-- `to_iso_date` from `sfa_utils/normalizers.py` (string input; the Python
signature also accepts `None`, which like `""` is falsy and yields `None`).
An unknown month name falls through to the `MDY_RX` stage, as in the
source. -/
def to_iso_date (raw : String) : Option String :=
  if raw = "" then none
  else
    match ymdMatch (pyStrip raw.data) with
    | some (y, mo, d) => if validDate y mo d then some (isoFormat y mo d) else none
    | none =>
      match monDYMatch (pyStrip raw.data) with
      | some (mon, d, yr) =>
        match monthLookup mon with
        | some mo =>
          if validDate (clip_year yr) mo d
          then some (isoFormat (clip_year yr) mo d) else none
        | none => mdyResolve (pyStrip raw.data)
      | none => mdyResolve (pyStrip raw.data)

/-! ## A small backtracking regex engine

The extractor and line-item patterns use multiline anchors, word
boundaries, lookaheads and lazy repetition, so they are embedded through a
single backtracking engine whose results are ordered exactly like the
`re` module's depth-first search: the first element of the result list is
the match Python returns. -/

/-- Matcher state: the character left of the current position (for `^` and
`\b`) and the remaining input. -/
structure RState where
  left : Option Char
  rest : List Char
  deriving Repr, DecidableEq

/-- Captured groups, by group number. -/
abbrev Caps := List (ℕ × List Char)

/-- Advance a state by `k` characters. -/
def RState.adv (st : RState) (k : ℕ) : RState :=
  if k = 0 then st
  else { left := (st.rest.take k).getLast?, rest := st.rest.drop k }

def isWordChar (c : Char) : Bool := c.isAlphanum || c == '_'

/-- Regex AST covering the constructs appearing in the source patterns. -/
inductive Rx where
  | eps
  | cls (p : Char → Bool)
  | seq (a b : Rx)
  | alt (a b : Rx)
  /-- counted repetition of a character class (`greedy = false` is lazy,
  `hi = none` is unbounded) -/
  | repc (greedy : Bool) (p : Char → Bool) (lo : ℕ) (hi : Option ℕ)
  /-- greedy star over a subpattern (used only for `(?:,\d{3})*`) -/
  | star (a : Rx)
  | grp (n : ℕ) (a : Rx)
  /-- negative lookahead `(?!a)` -/
  | nla (a : Rx)
  | wb
  | bol (ml : Bool)
  | eol (ml : Bool)

/-- Greedy star loop: longer iterations first, each iteration must consume
input (as the engine's star bodies always do on success). -/
def runStar (runA : RState → List (Caps × RState)) : ℕ → RState → List (Caps × RState)
  | 0, st => [([], st)]
  | fuel + 1, st =>
    (((runA st).filter (fun r => r.2.rest.length < st.rest.length)).flatMap
      (fun r => runStar runA fuel r.2)) ++ [([], st)]

/-- All ways to match `rx` at the current position, in backtracking
priority order; each result carries the captures and the end state. -/
def runRx : Rx → RState → List (Caps × RState)
  | .eps, st => [([], st)]
  | .cls p, st =>
    match st.rest with
    | c :: r => if p c then [([], ⟨some c, r⟩)] else []
    | [] => []
  | .seq a b, st =>
    (runRx a st).flatMap (fun ra =>
      (runRx b ra.2).map (fun rb => (ra.1 ++ rb.1, rb.2)))
  | .alt a b, st => runRx a st ++ runRx b st
  | .repc g p lo hi, st =>
    let maxrun := (st.rest.takeWhile p).length
    let top := min maxrun (hi.getD maxrun)
    if lo > top then []
    else
      let ks := (List.range (top + 1 - lo)).map (fun i => if g then top - i else lo + i)
      ks.map (fun k => (([] : Caps), st.adv k))
  | .star a, st => runStar (runRx a) st.rest.length st
  | .grp n a, st =>
    (runRx a st).map (fun r =>
      ((n, st.rest.take (st.rest.length - r.2.rest.length)) :: r.1, r.2))
  | .nla a, st => if (runRx a st).isEmpty then [([], st)] else []
  | .wb, st =>
    let lw := match st.left with | some c => isWordChar c | none => false
    let rw := match st.rest with | c :: _ => isWordChar c | [] => false
    if lw != rw then [([], st)] else []
  | .bol ml, st =>
    match st.left with
    | none => [([], st)]
    | some c => if ml ∧ c = '\n' then [([], st)] else []
  | .eol ml, st =>
    match st.rest with
    | [] => [([], st)]
    | '\n' :: r => if ml ∨ r = [] then [([], st)] else []
    | _ => []

/-- `pattern.match(s)` (anchored at position 0). -/
def reMatch (rx : Rx) (s : List Char) : Option (Caps × RState) :=
  (runRx rx ⟨none, s⟩).head?

/-- `pattern.search(s)` from a given position: leftmost position first. -/
def reSearchFrom (rx : Rx) : Option Char → List Char → Option (Caps × RState)
  | left, [] => (runRx rx ⟨left, []⟩).head?
  | left, c :: r =>
    match (runRx rx ⟨left, c :: r⟩).head? with
    | some res => some res
    | none => reSearchFrom rx (some c) r

/-- `pattern.search(s)`. -/
def reSearch (rx : Rx) (s : List Char) : Option (Caps × RState) :=
  reSearchFrom rx none s

/-- `pattern.finditer(s)`: non-overlapping matches, scanning left to
right and continuing after each match. -/
def findIterFrom (rx : Rx) : ℕ → RState → List Caps
  | 0, _ => []
  | fuel + 1, st =>
    match (runRx rx st).head? with
    | some (caps, st') =>
      if st'.rest.length < st.rest.length then caps :: findIterFrom rx fuel st'
      else
        match st.rest with
        | [] => [caps]
        | c :: r => caps :: findIterFrom rx fuel ⟨some c, r⟩
    | none =>
      match st.rest with
      | [] => []
      | c :: r => findIterFrom rx fuel ⟨some c, r⟩

def findIter (rx : Rx) (s : List Char) : List Caps :=
  findIterFrom rx (s.length + 1) ⟨none, s⟩

/-- Group lookup on a match result. -/
def capGroup (n : ℕ) (caps : Caps) : List Char :=
  (caps.lookup n).getD []

/-! ### Pattern combinators (all source patterns use `re.IGNORECASE`
where letters occur, so literals match case-insensitively) -/

def rxSeq (l : List Rx) : Rx := l.foldr .seq .eps

def rxChar (c : Char) : Rx := .cls (fun x => lowerChar x == lowerChar c)

def rxLit (s : String) : Rx := rxSeq (s.data.map rxChar)

/-- `a?` (greedy). -/
def rxOpt (a : Rx) : Rx := .alt a .eps

def rxSp0 : Rx := .repc true isPySpace 0 none
def rxSp01 : Rx := .repc true isPySpace 0 (some 1)
def rxSp1 : Rx := .repc true isPySpace 1 none
def rxDigits (lo : ℕ) (hi : Option ℕ) : Rx := .repc true Char.isDigit lo hi

/-- `\d+(?:\.\d+)?` -/
def rxNumFree : Rx :=
  rxSeq [rxDigits 1 none, rxOpt (rxSeq [rxChar '.', rxDigits 1 none])]

/-! ## `parser/extractor.py` — module-level patterns -/

/-- `[A-Za-z$€₹Ss5]` (the OCR-tolerant money prefix class). -/
def isOcrPre (c : Char) : Bool :=
  c.isAlpha || c == '$' || c == '€' || c == '₹' || c == '5'

/-- `[^\d$€₹Ss5]` (the "OCR noise" class between label and number). -/
def isNoise (c : Char) : Bool :=
  !(c.isDigit || c == '$' || c == '€' || c == '₹' || c == 'S' || c == 's')

/-- `(?:,\d{3})*` -/
def rxCommaGroups : Rx := .star (rxSeq [rxChar ',', rxDigits 3 (some 3)])

/-- `\d{1,3}(?:,\d{3})*` -/
def rxIntComma : Rx := rxSeq [rxDigits 1 (some 3), rxCommaGroups]

/-- `\d{1,3}(?:,\d{3})*(?:\.\d{2})` -/
def rxMoneyCore : Rx := rxSeq [rxIntComma, rxChar '.', rxDigits 2 (some 2)]

/-- `[A-Za-z$€₹Ss5]?\s?\d{1,3}(?:,\d{3})*(?:\.\d{2})` -/
def rxMoneyTok : Rx := rxSeq [.repc true isOcrPre 0 (some 1), rxSp01, rxMoneyCore]

/-- `_TOTAL_LABEL`:
`grand\s*total|amount\s*due|balance(?:\s*due)?|total(?!\s*sav(?:ing)?s?\b)(?!\s*discount\b)(?!\s*off\b)` -/
def rxTotalLabel : Rx :=
  .alt (rxSeq [rxLit "grand", rxSp0, rxLit "total"])
  (.alt (rxSeq [rxLit "amount", rxSp0, rxLit "due"])
  (.alt (rxSeq [rxLit "balance", rxOpt (rxSeq [rxSp0, rxLit "due"])])
        (rxSeq [rxLit "total",
                .nla (rxSeq [rxSp0, rxLit "sav", rxOpt (rxLit "ing"),
                             rxOpt (rxChar 's'), .wb]),
                .nla (rxSeq [rxSp0, rxLit "discount", .wb]),
                .nla (rxSeq [rxSp0, rxLit "off", .wb])])))

/-- `_TOTAL_LINE_RX` (MULTILINE), as actually compiled: the source builds
the pattern with an rf-string, so the intended quantifiers `{1,3}`, `{3}`
and `{2}` are f-string replacement fields that interpolate as the literal
texts `(1, 3)`, `3` and `2`; verbose mode then drops the inner space.  The
compiled pattern is
`^\s* label \b [^\d$€₹Ss5]* ([A-Za-z$€₹Ss5]?\s?\d(1,3)(?:,\d3)*(?:\.\d2)) \b`
where `(1,3)` is a capturing group (group 2) matching the literal text
`1,3`, and group 1 is the whole token. -/
def rxTotalLine : Rx :=
  rxSeq [.bol true, rxSp0, rxTotalLabel, .wb,
         .repc true isNoise 0 none,
         .grp 1 (rxSeq [.repc true isOcrPre 0 (some 1), rxSp01,
                        rxDigits 1 (some 1), .grp 2 (rxLit "1,3"),
                        .star (rxSeq [rxChar ',', rxDigits 1 (some 1),
                                      rxChar '3']),
                        rxChar '.', rxDigits 1 (some 1), rxChar '2']),
         .wb]

/-- `_TOTAL_SPLIT_RX` (MULTILINE), as actually compiled from the rf-string:
`{0,80}`, `{1,3}`, `{3}` and `{2}` interpolate as literals, so the pattern
is `^\s* label \b . (0,80)? (\d(1,3)(?:,\d3)*) \s+ (\d2) \b`: one
arbitrary non-newline character, an optional capturing group (group 1)
matching the literal `0,80`, the integer-part group (group 2, containing
the literal group `1,3` as group 3), whitespace, and a digit followed by a
literal `2` (group 4). -/
def rxTotalSplit : Rx :=
  rxSeq [.bol true, rxSp0, rxTotalLabel, .wb,
         .cls (· ≠ '\n'),
         rxOpt (.grp 1 (rxLit "0,80")),
         .grp 2 (rxSeq [rxDigits 1 (some 1), .grp 3 (rxLit "1,3"),
                        .star (rxSeq [rxChar ',', rxDigits 1 (some 1),
                                      rxChar '3'])]),
         rxSp1, .grp 4 (rxSeq [rxDigits 1 (some 1), rxChar '2']), .wb]

/-- `_TOTAL_IMPLIED_RX` (MULTILINE), as actually compiled from the
rf-string: `{0,120}` and `{3,6}` interpolate as literals, so the pattern
is `^\s* label \b . (0,120)? (\d(3,6)) \s* $`: group 1 is the optional
literal `0,120`, group 2 a digit followed by the literal `3,6`. -/
def rxTotalImplied : Rx :=
  rxSeq [.bol true, rxSp0, rxTotalLabel, .wb,
         .cls (· ≠ '\n'),
         rxOpt (.grp 1 (rxLit "0,120")),
         .grp 2 (rxSeq [rxDigits 1 (some 1), .grp 3 (rxLit "3,6")]),
         rxSp0, .eol true]

/-- `_NETPAY_RX`: `net\W*pay\b [^\d$€₹Ss5]* (money token) \b`. -/
def rxNetPay : Rx :=
  rxSeq [rxLit "net", .repc true (fun c => !isWordChar c) 0 none, rxLit "pay", .wb,
         .repc true isNoise 0 none, .grp 1 rxMoneyTok, .wb]

/-- The loose backup scan of `_find_netpay_in_text`:
`net\W*pay\b[^\d$€₹Ss5]*([A-Za-z$€₹Ss5]?\s*\d[\d,]*\s*(?:[.,]\s*\d{2}))`. -/
def rxNetPayLoose : Rx :=
  rxSeq [rxLit "net", .repc true (fun c => !isWordChar c) 0 none, rxLit "pay", .wb,
         .repc true isNoise 0 none,
         .grp 1 (rxSeq [.repc true isOcrPre 0 (some 1), rxSp0,
                        rxDigits 1 (some 1),
                        .repc true (fun c => c.isDigit || c == ',') 0 none,
                        rxSp0, .cls (fun c => c == '.' || c == ','),
                        rxSp0, rxDigits 2 (some 2)])]

/-- `_MONEY_RX`: a bare money token (group 1). -/
def rxMoney : Rx := .grp 1 rxMoneyTok

/-- `_SPACY_DEC_RX`: `(\d{1,3}(?:,\d{3})*)\s*[.,]\s*(\d{2})`. -/
def rxSpacyDec : Rx :=
  rxSeq [.grp 1 rxIntComma, rxSp0, .cls (fun c => c == '.' || c == ','),
         rxSp0, .grp 2 (rxDigits 2 (some 2))]

/-- `_SPACY_PURE_RX`: `(\d{1,3}(?:,\d{3})*)\s+(\d{2})\b`. -/
def rxSpacyPure : Rx :=
  rxSeq [.grp 1 rxIntComma, rxSp1, .grp 2 (rxDigits 2 (some 2)), .wb]

/-- `_SPACY_ANYSEP_RX`:
`[A-Za-z$€₹Ss5]?\s*(\d{1,3}(?:,\d{3})*)\s*[-–—·\.,]?\s*(\d{2})\b`. -/
def rxSpacyAnySep : Rx :=
  rxSeq [.repc true isOcrPre 0 (some 1), rxSp0, .grp 1 rxIntComma, rxSp0,
         .repc true (fun c => c == '-' || c == '–' || c == '—' || c == '·' ||
                              c == '.' || c == ',') 0 (some 1),
         rxSp0, .grp 2 (rxDigits 2 (some 2)), .wb]

/-- `_NUMERIC_ONLY_LINE_RX`:
`^\s*[A-Za-z$€₹Ss5]?\s*(?:\d[\d,\s]*(?:[.,]\s*\d{2})?|\d{3,6})\s*$`. -/
def rxNumericOnly : Rx :=
  rxSeq [.bol false, rxSp0, .repc true isOcrPre 0 (some 1), rxSp0,
         .alt (rxSeq [rxDigits 1 (some 1),
                      .repc true (fun c => c.isDigit || c == ',' || isPySpace c) 0 none,
                      rxOpt (rxSeq [.cls (fun c => c == '.' || c == ','),
                                    rxSp0, rxDigits 2 (some 2)])])
              (rxDigits 3 (some 6)),
         rxSp0, .eol false]

/-- The step-3a label test `re.search(rf"\b{_TOTAL_LABEL}\b", low)`. -/
def rxLabelAnywhere : Rx := rxSeq [.wb, rxTotalLabel, .wb]

/-- Step-3a implied cents: `re.match(r"^\s*(\d{3,6})\s*$", nxt)`. -/
def rxBareImplied : Rx :=
  rxSeq [.bol false, rxSp0, .grp 1 (rxDigits 3 (some 6)), rxSp0, .eol false]

/-- Step-4 tail: `re.search(r"(\d{1,3}(?:,\d{3})*)\s+(\d{2})\s*$", line)`. -/
def rxTailSplit : Rx :=
  rxSeq [.grp 1 rxIntComma, rxSp1, .grp 2 (rxDigits 2 (some 2)), rxSp0, .eol false]

/-- Step-4 tail: `re.search(r"(\d{3,6})\s*$", line)`. -/
def rxTailImplied : Rx :=
  rxSeq [.grp 1 (rxDigits 3 (some 6)), rxSp0, .eol false]

/-! ## `parser/extractor.py` — total / net-pay resolution -/

/-- `_norm_amount_token`: falsy tokens give the empty amount dict; the
normalizer always returns an `Amount` for a string, so the getattr
defaults are never used. -/
def norm_amount_token : Option String → Amount
  | none => { raw := "", value := none, currency := none }
  | some tok => if tok = "" then { raw := "", value := none, currency := none }
                else normalize_amount tok

/-- `_is_numeric_only_line`. -/
def is_numeric_only_line (s : List Char) : Bool :=
  (reMatch rxNumericOnly s).isSome

/-- `_IGNORE_TOTAL_CONTEXT` from the source, in order. -/
def IGNORE_TOTAL_CONTEXT : List String :=
  ["saving", "savings", "you saved", "discount", "coupon", "club", "just for u",
   "promo", "promotion", "cashback", "cash back", "% off", " percent off",
   "mfr coupon", "manufacturer coupon", "store coupon", "markdown", "deal"]

/-- `_infer_kind`. -/
def infer_kind (text : String) : Option String :=
  let t := lowerStr text.data
  if containsSub t "net pay".data || containsSub t "pay period".data ||
     containsSub t "paystub".data || containsSub t "pay stub".data then some "paystub"
  else if containsSub t "invoice".data ||
          (containsSub t "subtotal".data && containsSub t "total".data) then some "invoice"
  else none

/-- `f"{digits[:-2]}.{digits[-2:]}"` when `len(digits) > 2`, else
`f"0.{digits.zfill(2)}"` (step 3 of `_find_total_in_text`). -/
def impliedCentsStr (d : List Char) : List Char :=
  if d.length > 2 then d.take (d.length - 2) ++ '.' :: d.drop (d.length - 2)
  else '0' :: '.' :: List.replicate (2 - d.length) '0' ++ d

/-- `f"{d[:-2]}.{d[-2:]}"` (the two tail/implied forms on ≥3 digits). -/
def dotAtCents (d : List Char) : List Char :=
  d.take (d.length - 2) ++ '.' :: d.drop (d.length - 2)

/-- Step 3a, inner scan of a look-ahead line (already `.strip()`ed):
money token, then spaced decimals, then pure spaced cents, then implied
cents — on numeric-only lines only. -/
def step3aScanLine (nxt : List Char) : Option String :=
  if !is_numeric_only_line nxt then none
  else
    match reSearch rxMoney nxt with
    | some r => some (String.mk (capGroup 1 r.1))
    | none =>
    match reSearch rxSpacyDec nxt with
    | some r => some (String.mk (capGroup 1 r.1 ++ '.' :: capGroup 2 r.1))
    | none =>
    match reSearch rxSpacyPure nxt with
    | some r => some (String.mk (capGroup 1 r.1 ++ '.' :: capGroup 2 r.1))
    | none =>
    match reMatch rxBareImplied nxt with
    | some r => some (String.mk (dotAtCents (capGroup 1 r.1)))
    | none => none

/-- Step 3a of `_find_total_in_text`: a label-bearing line followed within
two lines by a numeric-only amount line. -/
def totalStep3a (lines : List (List Char)) : Option String :=
  (List.range lines.length).findSome? (fun i =>
    if (reSearch rxLabelAnywhere (lowerStr (lines.getD i []))).isSome then
      [i + 1, i + 2].findSome? (fun j =>
        match lines.get? j with
        | none => none
        | some nxt => step3aScanLine (pyStrip nxt))
    else none)

/-- State of the step-4 fallback loop: collected candidate tokens and the
`prev_ctx` counter of numeric-only lines still to be ignored. -/
structure Step4State where
  candidates : List String
  prevCtx : ℕ
  deriving Repr, DecidableEq

/-- One line of the step-4 fallback loop of `_find_total_in_text` (the
`low` variable of the source is inlined). -/
def step4Line (st : Step4State) (line : List Char) : Step4State :=
  if st.prevCtx > 0 ∧ is_numeric_only_line line then
    { st with prevCtx := st.prevCtx - 1 }
  else if IGNORE_TOTAL_CONTEXT.any
      (fun k => containsSub (pyStrip (lowerStr line)) k.data) then
    { st with prevCtx := 2 }
  else
    { st with candidates := st.candidates ++
        ((findIter rxMoney line).map (fun c => String.mk (capGroup 1 c))) ++
        ((findIter rxSpacyDec line).map
          (fun c => String.mk (capGroup 1 c ++ '.' :: capGroup 2 c))) ++
        ((findIter rxSpacyPure line).map
          (fun c => String.mk (capGroup 1 c ++ '.' :: capGroup 2 c))) ++
        ((findIter rxSpacyAnySep line).map
          (fun c => String.mk (capGroup 1 c ++ '.' :: capGroup 2 c))) ++
        (if containsSub (pyStrip (lowerStr line)) "total".data ||
            containsSub (pyStrip (lowerStr line)) "amount due".data ||
            containsSub (pyStrip (lowerStr line)) "grand total".data ||
            containsSub (pyStrip (lowerStr line)) "balance".data then
          (match reSearch rxTailSplit line with
           | some r => [String.mk (capGroup 1 r.1 ++ '.' :: capGroup 2 r.1)]
           | none => []) ++
          (match reSearch rxTailImplied line with
           | some r => [String.mk (dotAtCents (capGroup 1 r.1))]
           | none => [])
        else []) }

/-- The step-4 candidate list over all lines. -/
def step4Candidates (lines : List (List Char)) : List String :=
  (lines.foldl step4Line { candidates := [], prevCtx := 0 }).candidates

/-- One iteration of the step-4 best pick
(`if val is not None and (best_val is None or val > best_val)`). -/
def bestStep (best : Option String × Option ℚ) (tok : String) :
    Option String × Option ℚ :=
  match (normalize_amount tok).value with
  | some v =>
    match best.2 with
    | none => (some tok, some v)
    | some bv => if v > bv then (some tok, some v) else best
  | none => best

/-- The step-4 pick: the first token whose normalized value is strictly
greater than every earlier one (`val > best_val`). -/
def bestCandidate (cands : List String) : Option String :=
  (cands.foldl bestStep (none, none)).1

/-- Strategy 1: `_TOTAL_LINE_RX.search`. -/
def totalStep1 (text : String) : Option String :=
  (reSearch rxTotalLine text.data).map (fun r => String.mk (capGroup 1 r.1))

/-- Strategy 2: `_TOTAL_SPLIT_RX.search`, token `f"{whole}.{cents}"` with
`whole = m2.group(1)` and `cents = m2.group(2)`.  In the mangled pattern
group 1 is the optional literal `0,80` group — `None` when unset, which
the f-string prints as the text `None` — and group 2 is the integer-part
group, so the token is not of the intended `whole.cents` shape. -/
def totalStep2 (text : String) : Option String :=
  (reSearch rxTotalSplit text.data).map (fun r =>
    String.mk ((if capGroup 1 r.1 = [] then "None".data else capGroup 1 r.1) ++
      '.' :: capGroup 2 r.1))

/-- Steps 3a and 4 of `_find_total_in_text`: label look-ahead over the
next two lines, then the candidate-maximum fallback. -/
def totalStepsTail (text : String) : Amount :=
  let lines := pySplitlines text.data
  match totalStep3a lines with
  | some tok => norm_amount_token (some tok)
  | none => norm_amount_token (bestCandidate (step4Candidates lines))

/-- `_find_total_in_text`.  Step 3 reads `digits = m3.group(1)`, which in
the mangled pattern is the optional literal `0,120` group: when
`_TOTAL_IMPLIED_RX` matches with that group unset, `digits.isdigit()`
dereferences `None` and the function raises `AttributeError` (modelled as
`none`); when the group is set it holds the text `0,120`, `isdigit()` is
false, and the scan falls through to step 3a. -/
def find_total_in_text (text : String) : Option Amount :=
  match totalStep1 text with
  | some tok => some (norm_amount_token (some tok))
  | none =>
  match totalStep2 text with
  | some tok => some (norm_amount_token (some tok))
  | none =>
  match reSearch rxTotalImplied text.data with
  | some r =>
    if capGroup 1 r.1 = [] then none
    else if (capGroup 1 r.1).all Char.isDigit then
      some (norm_amount_token (some (String.mk (impliedCentsStr (capGroup 1 r.1)))))
    else some (totalStepsTail text)
  | none => some (totalStepsTail text)

/-- `_find_netpay_in_text`. -/
def find_netpay_in_text (text : String) : Option Amount :=
  match reSearch rxNetPay text.data with
  | some r => some (norm_amount_token (some (String.mk (capGroup 1 r.1))))
  | none =>
  match reSearch rxNetPayLoose text.data with
  | some r =>
    -- tok.replace(" ", "").replace(",", ""); the ".,"/",." repairs are
    -- no-ops once every comma has been removed
    let tok := ((capGroup 1 r.1).filter (· ≠ ' ')).filter (· ≠ ',')
    some (norm_amount_token (some (String.mk tok)))
  | none => none

/-! ## `parser/extractor.py` — the modern `extract` -/

/-- `_parse_money_line`'s pattern for a fixed label. -/
def rxMoneyLine (label : String) : Rx :=
  rxSeq [.bol false, rxLit label, rxSp0, rxOpt (.cls (fun c => c == ':' || c == '-')),
         rxSp0, rxOpt (rxChar '$'), rxSp0, .grp 1 rxNumFree, rxSp0, .eol false]

/-- `_parse_money_line`: first line matching `label [:-]? $? number`. -/
def parse_money_line (label : String) (text : String) : Option ℚ :=
  (pySplitlines text.data).findSome? (fun raw =>
    match reMatch (rxMoneyLine label) (pyStrip raw) with
    | some r => parsePyFloat (capGroup 1 r.1)
    | none => none)

/-- ISO-like pattern of `_parse_date`: `20dd`, separator (dash or slash),
month digits, separator, day digits, inside word boundaries. -/
def rxParseDateIso : Rx :=
  rxSeq [.wb, .grp 1 (rxSeq [rxChar '2', rxChar '0', rxDigits 2 (some 2)]),
         .cls (fun c => c == '-' || c == '/'), .grp 2 (rxDigits 1 (some 2)),
         .cls (fun c => c == '-' || c == '/'), .grp 3 (rxDigits 1 (some 2)), .wb]

/-- US-style `\b(\d{1,2})/(\d{1,2})/(20\d{2})\b` of `_parse_date`. -/
def rxParseDateUS : Rx :=
  rxSeq [.wb, .grp 1 (rxDigits 1 (some 2)), rxChar '/', .grp 2 (rxDigits 1 (some 2)),
         rxChar '/', .grp 3 (rxSeq [rxChar '2', rxChar '0', rxDigits 2 (some 2)]), .wb]

/-- `_parse_date`: ISO-like first, then US style, invalid dates skipped. -/
def parse_date (text : String) : Option String :=
  let isoTry :=
    match reSearch rxParseDateIso text.data with
    | some r =>
      let y := digitsVal (capGroup 1 r.1)
      let mo := digitsVal (capGroup 2 r.1)
      let d := digitsVal (capGroup 3 r.1)
      if validDate y mo d then some (isoFormat y mo d) else none
    | none => none
  match isoTry with
  | some s => some s
  | none =>
    match reSearch rxParseDateUS text.data with
    | some r =>
      let mo := digitsVal (capGroup 1 r.1)
      let d := digitsVal (capGroup 2 r.1)
      let y := digitsVal (capGroup 3 r.1)
      if validDate y mo d then some (isoFormat y mo d) else none
    | none => none

/-- `_parse_vendor`: first non-empty stripped line of at most 50 characters
containing a letter. -/
def parse_vendor (text : String) : Option String :=
  (pySplitlines text.data).findSome? (fun raw =>
    let s := pyStrip raw
    if 0 < s.length ∧ s.length ≤ 50 ∧ s.any Char.isAlpha
    then some (String.mk s) else none)

/-- The bullet line-item pattern of `_parse_line_items`. -/
def rxBulletItem : Rx :=
  rxSeq [.bol false, .cls (fun c => c == '-' || c == '*' || c == '•'), rxSp0,
         .grp 1 (.repc false (· ≠ '\n') 1 none), rxSp1,
         .grp 2 rxNumFree, rxSp0, .cls (fun c => lowerChar c == 'x' || c == '@'),
         rxSp0, .grp 3 rxNumFree, rxSp0, rxChar '=', rxSp0, .grp 4 rxNumFree,
         .eol false]

/-- A line item of the modern `_parse_line_items`
(`{desc, qty, unit_price, amount}`). -/
structure PLineItem where
  desc : String
  qty : ℚ
  unit_price : ℚ
  amount : ℚ
  deriving Repr, DecidableEq

/-- `_parse_line_items`. -/
def parse_line_items (text : String) : List PLineItem :=
  (pySplitlines text.data).filterMap (fun raw =>
    match reMatch rxBulletItem (pyStrip raw) with
    | some r => do
      let q ← parsePyFloat (capGroup 2 r.1)
      let u ← parsePyFloat (capGroup 3 r.1)
      let a ← parsePyFloat (capGroup 4 r.1)
      some { desc := String.mk (pyStrip (capGroup 1 r.1)), qty := q,
             unit_price := u, amount := a }
    | none => none)

/-- `_safe_float` on an optional value (`float(None)` raises, giving 0.0). -/
def safe_float (x : Option ℚ) : ℚ := x.getD 0

/-- Round-half-to-even to an integer, Python's `round`. -/
def rndEven (x : ℚ) : ℤ :=
  let fl := ⌊x⌋
  let fr := x - fl
  if fr < 1/2 then fl
  else if fr > 1/2 then fl + 1
  else if fl % 2 = 0 then fl else fl + 1

/-- Python `round(x, p)` modelled exactly on rationals. -/
def pyRound (x : ℚ) (p : ℕ) : ℚ :=
  (rndEven (x * 10 ^ p) : ℚ) / 10 ^ p

/-- `compute_sanity` from `parser/extractor.py`, on items produced by
`_parse_line_items` (each such dict has `qty` and `unit_price`, so the
`unit_price` branch of the accumulation is always taken).  The result is
the dict with the three `items_subtotal_*` keys. -/
def compute_sanity (line_items : List PLineItem) (subtotal : Option ℚ) :
    List (String × ℚ) :=
  let liSum := line_items.foldl (fun acc li => acc + li.qty * li.unit_price) 0
  let liSum := pyRound liSum 2
  let sub := safe_float subtotal
  let diff := pyRound |liSum - sub| 2
  let pct := if sub > 0 then pyRound (diff / max (1 / 100) sub) 4 else 0
  [("items_subtotal_sum", liSum),
   ("items_subtotal_diff", diff),
   ("items_subtotal_pct", pct)]

/-- The `ParsedTotals` dataclass. -/
structure ParsedTotals where
  subtotal : Option ℚ
  tax : Option ℚ
  tip : Option ℚ
  total : Option ℚ
  reconciled_total_used : Bool
  deriving Repr, DecidableEq

/-- The `ParsedDoc` dataclass (`meta` holds `source_path or ""`). -/
structure ParsedDoc where
  vendor : Option String
  date : Option String
  line_items : List PLineItem
  totals : ParsedTotals
  sanity : List (String × ℚ)
  meta : String
  deriving Repr, DecidableEq

/-- `extract` from `parser/extractor.py` (with `source_path = None`);
`reconciled_total_used` is hard-wired `False` in the source
("wire real reconciliation later"). -/
def extract (normalized_text : String) : ParsedDoc :=
  let vendor := parse_vendor normalized_text
  let date := parse_date normalized_text
  let subtotal := parse_money_line "subtotal" normalized_text
  let tax := parse_money_line "tax" normalized_text
  let tip := parse_money_line "tip" normalized_text
  let total := parse_money_line "total" normalized_text
  let line_items := parse_line_items normalized_text
  let sanity := compute_sanity line_items subtotal
  { vendor := vendor, date := date, line_items := line_items,
    totals := { subtotal := subtotal, tax := tax, tip := tip, total := total,
                reconciled_total_used := false },
    sanity := sanity, meta := "" }

/-! ## `parser/extractor.py` — the legacy wrapper `extract_from_text` -/

/-- The legacy output dict `{kind, total, net_pay}`. -/
structure LegacyOut where
  kind : Option String
  total : Amount
  net_pay : Option Amount
  deriving Repr, DecidableEq

/-- `extract_from_text`.  The modern `ParsedDoc` has no `kind` or `total`
attribute and its `totals` is a dataclass rather than a dict, so the
initial getattr probes always leave `kind = None` and
`total = _as_amount_dict(None)` (whose `value` is `None`); the backfills
then run unconditionally.  When no net pay is found,
`_find_total_in_text` runs outside any try block, so its
`AttributeError` propagates (modelled as `none`). -/
def extract_from_text (text : String) : Option LegacyOut :=
  let kind0 := infer_kind text
  let net := find_netpay_in_text text
  let kind1 := match net with
    | some _ => kind0 <|> some "paystub"
    | none => kind0
  match net with
  | some n => some { kind := kind1, total := n, net_pay := some n }
  | none =>
    match find_total_in_text text with
    | some total =>
      some { kind := kind1, total := total,
             net_pay := if kind1 = some "paystub" then some total else none }
    | none => none

/-! ## `parser/doc_type.py` -/

/-- `INVOICE_TOKENS` (insertion order). -/
def INVOICE_TOKENS : List (String × ℕ) :=
  [("invoice", 3), ("subtotal", 1), ("tax", 1), ("gst", 1), ("vat", 1),
   ("amount due", 2), ("balance due", 2), ("purchase order", 2), ("po #", 2),
   ("bill to", 2), ("ship to", 1)]

/-- `PAYSTUB_TOKENS`. -/
def PAYSTUB_TOKENS : List (String × ℕ) :=
  [("pay period", 3), ("gross pay", 2), ("net pay", 3), ("ytd", 1),
   ("earnings", 1), ("deductions", 1), ("employee", 1), ("pay date", 2),
   ("hours", 1), ("rate", 1)]

/-- The `DocTypeScore` dataclass. -/
structure DocTypeScore where
  invoice : ℕ
  paystub : ℕ
  kind : String
  deriving Repr, DecidableEq

/-- The weighted sum of the keywords present in the lowercased text. -/
def keywordScore (table : List (String × ℕ)) (t : List Char) : ℕ :=
  (table.filter (fun kw => containsSub t kw.1.data)).foldl (fun a kw => a + kw.2) 0

/-- `score` from `parser/doc_type.py`. -/
def score (text : String) : DocTypeScore :=
  let t := lowerStr text.data
  let inv := keywordScore INVOICE_TOKENS t
  let pay := keywordScore PAYSTUB_TOKENS t
  { invoice := inv, paystub := pay,
    kind := if inv ≥ pay then "invoice" else "paystub" }

/-! ## `parser/lineitems.py` -/

/-- The `[S$€₹]` prefix class of the line-item money patterns (the
patterns are compiled with `re.IGNORECASE`, so `s` is included). -/
def isLiPre (c : Char) : Bool :=
  c == 'S' || c == 's' || c == '$' || c == '€' || c == '₹'

/-- `[S$€₹]?\s?\d{1,3}(?:,\d{3})*\.\d{2}`. -/
def rxLiMoney : Rx := rxSeq [.repc true isLiPre 0 (some 1), rxSp01, rxMoneyCore]

def rxLbKg : Rx := .alt (rxLit "lb") (rxLit "kg")

/-- `ROW_RX_WEIGHTED` (group numbers follow the Python pattern:
1 = desc, 2 = qty, 4 = unit, 6 = total; 3 and 5 are the `(lb|kg)`
groups, which the source never reads). -/
def rxRowWeighted : Rx :=
  rxSeq [.bol false, rxSp0, .grp 1 (.repc false (· ≠ '\n') 1 none), rxSp1,
         .grp 2 rxNumFree, rxSp0, rxLbKg, rxSp0, rxChar '@', rxSp0,
         .grp 4 (rxSeq [rxDigits 1 none, rxChar '.', rxDigits 1 none]),
         rxSp0, rxChar '/', rxSp0, rxLbKg,
         .repc false (· ≠ '\n') 0 none,
         .grp 6 rxLiMoney, rxSp0, .eol false]

/-- `ROW_RX_QTY_UNIT_TOTAL` (1 = qty, 2 = desc, 3 = unit, 4 = total). -/
def rxRowQtyUnitTotal : Rx :=
  rxSeq [.bol false, rxSp0, .grp 1 rxNumFree, rxSp1,
         .grp 2 (.repc false (· ≠ '\n') 1 none), rxSp1,
         .grp 3 rxLiMoney, rxSp1, .grp 4 rxLiMoney, rxSp0, .eol false]

/-- `ROW_RX_XFORM` (1 = desc, 2 = unit, 3 = qty, 4 = total). -/
def rxRowXform : Rx :=
  rxSeq [.bol false, rxSp0, .grp 1 (.repc false (· ≠ '\n') 1 none), rxSp1,
         .grp 2 rxLiMoney, rxSp0,
         .cls (fun c => lowerChar c == 'x' || c == '×'), rxSp0,
         .grp 3 rxNumFree, rxSp1, .repc false (· ≠ '\n') 0 none,
         .grp 4 rxLiMoney, rxSp0, .eol false]

/-- `ROW_RX_SIMPLE` (1 = desc, 2 = total). -/
def rxRowSimple : Rx :=
  rxSeq [.bol false, rxSp0, .grp 1 (.repc false (· ≠ '\n') 1 none), rxSp1,
         .grp 2 rxLiMoney, rxSp0, .eol false]

/-- `QTY_NEXT_RX`. -/
def rxQtyNext : Rx :=
  rxSeq [.bol false, rxSp0, .alt (rxLit "qty") (rxLit "quantity"), rxSp0,
         rxOpt (.cls (fun c => c == ':' || c == '-')), rxSp0,
         .grp 1 rxNumFree, rxSp0, .eol false]

/-- `SECTION_RX`. -/
def rxSection : Rx :=
  rxSeq [.bol false, rxSp0,
         .grp 1 ([rxLit "DELI", rxLit "PRODUCE", rxLit "BAKERY", rxLit "MEAT",
                  rxLit "SEAFOOD", rxLit "DAIRY", rxLit "FROZEN", rxLit "GROCERY",
                  rxLit "HOUSEHOLD", rxLit "BEVERAGES", rxLit "SNACKS",
                  rxLit "PANTRY", rxLit "BULK",
                  rxSeq [rxLit "BAKED", rxSp1, rxLit "GOODS"]].foldr .alt
                    (.cls (fun _ => false))),
         rxSp0, rxOpt (rxChar ':'), rxSp0, .eol false]

/-- A line item of `extract_line_items`: `{qty, desc, unit_price,
line_total}` plus the optional `section` tag (named `sect` here because
`section` is a Lean keyword). -/
structure LIItem where
  qty : Option ℚ
  desc : String
  unit_price : Amount
  line_total : Amount
  sect : Option String
  deriving Repr, DecidableEq

/-- `f"{x:.2f}"` for the non-negative unit prices of weighted rows,
rounding half-to-even as float formatting does. -/
def fmt2 (q : ℚ) : String :=
  let cents := (rndEven (q * 100)).toNat
  toString (cents / 100) ++ "." ++ padNum 2 (cents % 100)

/-- `_amt_triplet`: normalize after a second OCR fix; the normalizer
always returns an `Amount` for a string argument. -/
def amt_triplet (raw_amount : String) : Amount :=
  normalize_amount (String.mk (fixCurrencyOcr raw_amount.data))

/-- `_match_weighted`. -/
def match_weighted (line : List Char) : Option LIItem :=
  match reMatch rxRowWeighted (pyStrip line) with
  | none => none
  | some r => do
    let qty ← parsePyFloat (capGroup 2 r.1)
    let unit ← parsePyFloat (capGroup 4 r.1)
    let total := amt_triplet (String.mk (capGroup 6 r.1))
    some { qty := some qty, desc := String.mk (pyStrip (capGroup 1 r.1)),
           unit_price := { raw := fmt2 unit, value := some unit,
                           currency := total.currency },
           line_total := total, sect := none }

/-- `_match_qty_unit_total` (the `if unit_amt else …` fallbacks of the
source are dead, since the normalizer never returns `None` for a
string). -/
def match_qty_unit_total (line : List Char) : Option LIItem :=
  match reMatch rxRowQtyUnitTotal (pyStrip line) with
  | none => none
  | some r => do
    let qty ← parsePyFloat (capGroup 1 r.1)
    let unitAmt := amt_triplet (String.mk (capGroup 3 r.1))
    let total := amt_triplet (String.mk (capGroup 4 r.1))
    some { qty := some qty, desc := String.mk (pyStrip (capGroup 2 r.1)),
           unit_price := unitAmt, line_total := total, sect := none }

/-- `_match_xform`. -/
def match_xform (line : List Char) : Option LIItem :=
  match reMatch rxRowXform (pyStrip line) with
  | none => none
  | some r => do
    let qty ← parsePyFloat (capGroup 3 r.1)
    let unitAmt := amt_triplet (String.mk (capGroup 2 r.1))
    let total := amt_triplet (String.mk (capGroup 4 r.1))
    some { qty := some qty, desc := String.mk (pyStrip (capGroup 1 r.1)),
           unit_price := unitAmt, line_total := total, sect := none }

/-- `_match_simple`. -/
def match_simple (line : List Char) : Option LIItem :=
  match reMatch rxRowSimple (pyStrip line) with
  | none => none
  | some r =>
    let total := amt_triplet (String.mk (capGroup 2 r.1))
    some { qty := none, desc := String.mk (pyStrip (capGroup 1 r.1)),
           unit_price := { raw := "", value := none, currency := total.currency },
           line_total := total, sect := none }

/-- The matcher chain of `extract_line_items`, in the order of the
source's `for matcher in (...)` tuple. -/
def tryRowMatchers (line : List Char) : Option LIItem :=
  match_qty_unit_total line <|> match_xform line <|>
  match_weighted line <|> match_simple line

/-- Loop state of `extract_line_items`. -/
structure LIState where
  items : List LIItem
  lastIdx : Option ℕ
  currentSection : Option String
  deriving Repr, DecidableEq

/-- Emit a matched row, tagged with the current section. -/
def liEmit (st : LIState) (item : LIItem) : LIState :=
  let item := match st.currentSection with
    | some sec => { item with sect := some sec }
    | none => item
  { st with items := st.items ++ [item], lastIdx := some st.items.length }

/-- One iteration of the `extract_line_items` loop. -/
def liStep (st : LIState) (raw : List Char) : LIState :=
  let line := pyStrip raw
  if line = [] then st
  else
    match reMatch rxSection line with
    | some r =>
      { st with currentSection := some (String.mk (upperStr (capGroup 1 r.1))) }
    | none =>
      let rowBranch :=
        match tryRowMatchers line with
        | some item => liEmit st item
        | none => st
      match reMatch rxQtyNext line with
      | some r =>
        if st.lastIdx.isSome ∧ st.items ≠ [] then
          match parsePyFloat (capGroup 1 r.1), st.lastIdx with
          | some qv, some li =>
            let upd := st.items.mapIdx
              (fun i it => if i = li then { it with qty := some qv } else it)
            { st with items := upd }
          | _, _ => st
        else rowBranch
      | none => rowBranch

/-- `extract_line_items` from `parser/lineitems.py`. -/
def extract_line_items (lines : List String) : List LIItem :=
  (lines.foldl (fun st raw => liStep st raw.data)
    { items := [], lastIdx := none, currentSection := none }).items

/-! ## Claim-side specification definitions and concrete scenarios -/

/-- Does the list start with digit, dot, digit, digit (the tail of an
unsigned dot-decimal money core)? -/
def dotShapeHead : List Char → Bool
  | d :: '.' :: a :: b :: _ => d.isDigit && a.isDigit && b.isDigit
  | _ => false

/-- Spec-side: the text contains a digit, immediately followed by a dot
and two digits, somewhere. -/
def containsDotDecimal : List Char → Bool
  | [] => false
  | l@(_ :: rest) => dotShapeHead l || containsDotDecimal rest

/-- Spec-side maximum of a list of rationals. -/
def specMaxQ : List ℚ → Option ℚ
  | [] => none
  | x :: xs => some (xs.foldl max x)

/-- Accumulator form of the running maximum. -/
def stepMax (acc : Option ℚ) (v : ℚ) : Option ℚ :=
  some (match acc with | none => v | some a => max a v)

/-- Invariant of the step-4 best pick: the best token and best value are
absent together, or the best token normalizes to the best value. -/
def bestInv (b : Option String × Option ℚ) : Prop :=
  (b.1 = none ∧ b.2 = none) ∨
  ∃ t v, b.1 = some t ∧ b.2 = some v ∧ (normalize_amount t).value = some v

/-- Spec-side reading of the document-type scorer: the sum, over the
keyword table, of the weight of every keyword present as a substring of
the lowercased text (each distinct keyword counted once). -/
def claimKeywordSum (table : List (String × ℕ)) (t : List Char) : ℕ :=
  (table.map (fun kw => if containsSub t kw.1.data then kw.2 else 0)).sum

/-- The reconciliation-override scenario of the spec: subtotal 90, tax 10,
a labelled total line reading 17.00, and `100.00` verbatim on another
line that is in no savings block. -/
def c1Text : String := "Subtotal: 90\nTax: 10\nTotal: 17.00\n100.00"

/-- A row matched by both the weighted-unit shape and the
quantity-unit-total shape, with different parses. -/
def c5Line : String := "2 Oranges 1.50 lb @ 2.00/lb 3.00 3.00"

/-- The paystub scenario text of the spec. -/
def c6Text : String :=
  "Employer XYZ\nEmployee: Jane Doe\nPay Period: 01/01/2024 to 01/15/2024\nNet Pay: $1234.56"

/-- A text whose only money-shaped token is `5.00` but whose bare digit
run `9999` yields the larger any-separator candidate `99.99`. -/
def c10Text : String := "abc 5.00\n9999"

/-- Spec-side: patterns whose every successful match must consume at least
one character satisfying `p` (used to discharge searches over lines free
of such characters). -/
def ReqPred (p : Char → Bool) : Rx → Prop
  | .eps => False
  | .cls q => ∀ c, q c = true → p c = true
  | .seq a b => ReqPred p a ∨ ReqPred p b
  | .alt a b => ReqPred p a ∧ ReqPred p b
  | .repc _ q lo _ => 1 ≤ lo ∧ ∀ c, q c = true → p c = true
  | .star _ => False
  | .grp _ a => ReqPred p a
  | .nla _ => False
  | .wb => False
  | .bol _ => False
  | .eol _ => False

/-- Patterns whose every successful match must consume a digit. -/
def ReqDigit : Rx → Prop := ReqPred Char.isDigit

/-- The character class of the (case-insensitive) literal `3` appearing in
the f-string-mangled total patterns. -/
def has3 (c : Char) : Bool := lowerChar c == lowerChar '3'

/-- The no-reconciliation scenario: the same labels and amounts as
`c1Text`, but with filler lines after the labelled total line, so that
the step-3a look-ahead finds no numeric-only line and the step-4 maximum
decides. -/
def c1bText : String :=
  "Subtotal: 90\nTax: 10\nTotal: 17.00\nabc\ndef\n100.00\nFee 200.00"

/-- Spec-side: join lines with single newlines (the inverse of
`splitlines` on newline-free lines). -/
def joinNl : List (List Char) → List Char
  | [] => []
  | [l] => l
  | l :: ls => l ++ '\n' :: joinNl ls

/-- The savings line of the C4 scenario. -/
def c4Line : List Char := "You saved $5.00".data

/-! ## Supporting lemmas -/

theorem foldl_add_snd (l : List (String × ℕ)) (a : ℕ) :
    l.foldl (fun x y => x + y.2) a = a + l.foldl (fun x y => x + y.2) 0 := by
  induction l generalizing a with
  | nil => simp
  | cons kw rest ih =>
    simp only [List.foldl_cons]
    rw [ih (a + kw.2), ih (0 + kw.2)]
    omega

theorem keywordScore_eq (table : List (String × ℕ)) (t : List Char) :
    keywordScore table t = claimKeywordSum table t := by
  induction table with
  | nil => rfl
  | cons kw rest ih =>
    unfold keywordScore claimKeywordSum at ih ⊢
    by_cases h : containsSub t kw.1.data
    · simp only [List.filter_cons, h, if_true, List.map_cons, List.sum_cons,
        List.foldl_cons]
      rw [foldl_add_snd, ih]
      omega
    · simp only [List.filter_cons, h, if_false, List.map_cons, List.sum_cons,
        List.foldl_cons, Bool.false_eq_true]
      rw [ih]
      simp

/-! ## Claim C1 — arithmetic-reconciliation override -/

/-- C1 (counterexample): `c1bText` contains a subtotal label with value
90, a tax label with value 10, a labelled `Total` line reading `17.00`,
and `100.00` verbatim on another non-savings line, yet `extract_from_text`
resolves the total to `200.00` — not to the arithmetic sum `100.00`: no
reconciliation pass exists in the code, and the step-4 fallback simply
takes the maximum candidate. -/
theorem C1_reconciliation_counterexample :
    containsSub c1bText.data "100.00".data = true ∧
    (extract_from_text c1bText).map (fun o => o.total.value) =
      some (some 200) ∧
    (extract_from_text c1bText).map (fun o => o.total.value) ≠
      some (some 100) := by
  refine ⟨by decide, by decide, by decide⟩

/-- C1 (amended): on the canonical reconciliation scenario `c1Text` the
resolver does return `100.00`, but not by reconciling against
`subtotal + tax`: every labelled same-line strategy fails (the mangled
patterns need a literal `1,3` or `3,6`), and step 3a finds the
numeric-only line `100.00` within two lines of the `Total` label; with
filler lines between the label and `100.00` (`c1bText`) the step-4
maximum `200.00` is returned instead, so no reconciliation against
`subtotal + tax = 100` takes place. -/
theorem C1_no_reconciliation :
    (extract_from_text c1Text).map (fun o => o.total.value) =
      some (some 100) ∧
    totalStep1 c1Text = none ∧ totalStep2 c1Text = none ∧
    totalStep3a (pySplitlines c1Text.data) = some "100.00" ∧
    (extract_from_text c1bText).map (fun o => o.total.value) =
      some (some 200) := by
  refine ⟨by decide, by decide, by decide, by decide, by decide⟩

/-! ## Claim C2 — the sanity block -/

/-- C2 (counterexample): on the empty input — where the claim would
require `low_confidence = true` — the sanity block of `extract` has no
`low_confidence` field at all; its keys are the three `items_subtotal_*`
diagnostics. -/
theorem C2_no_low_confidence_counterexample :
    (extract "").sanity.map Prod.fst =
      ["items_subtotal_sum", "items_subtotal_diff", "items_subtotal_pct"] ∧
    "low_confidence" ∉ (extract "").sanity.map Prod.fst := by
  refine ⟨by decide, by decide⟩

/-- C2 (amended): for every input text the sanity block of `extract`
consists of exactly the keys `items_subtotal_sum`, `items_subtotal_diff`
and `items_subtotal_pct` (the line-items-versus-subtotal reconciliation
diagnostics); no `low_confidence` or `amount_hits` field exists. -/
theorem C2_sanity_fields (text : String) :
    (extract text).sanity.map Prod.fst =
      ["items_subtotal_sum", "items_subtotal_diff", "items_subtotal_pct"] ∧
    "low_confidence" ∉ (extract text).sanity.map Prod.fst ∧
    "amount_hits" ∉ (extract text).sanity.map Prod.fst := by
  have h : (extract text).sanity.map Prod.fst =
      ["items_subtotal_sum", "items_subtotal_diff", "items_subtotal_pct"] := rfl
  exact ⟨h, by rw [h]; decide, by rw [h]; decide⟩

/-- C2 witness at a concrete input. -/
theorem C2_sanity_fields_witness :
    (extract "Subtotal: 12").sanity.map Prod.fst =
      ["items_subtotal_sum", "items_subtotal_diff", "items_subtotal_pct"] :=
  (C2_sanity_fields "Subtotal: 12").1

/-! ## Claim C5 — row-shape matcher order -/

/-- C5 (counterexample): on a line matched by both the weighted-unit shape
(qty `1.50`) and the quantity-unit-total shape (qty `2`), the emitted item
carries qty `2`: the quantity-unit-total shape is tried before the
weighted shape, so the claimed order (weighted first) is wrong. -/
theorem C5_matcher_order_counterexample :
    (match_weighted c5Line.data).isSome = true ∧
    ((match_weighted c5Line.data).map (fun it => it.qty)) = some (some (mkRat 3 2)) ∧
    (extract_line_items [c5Line]).map (fun it => (it.qty, it.desc)) =
      [(some 2, "Oranges 1.50 lb @ 2.00/lb")] := by
  refine ⟨by decide, by decide, by decide⟩

/-- C5 (amended): every non-empty line that is neither a section header
nor an attached quantity line is tried against the row shapes in the fixed
order quantity-unit-total, multiplicative, weighted-unit, simple, and the
first shape that matches produces the emitted item (tagged with the
current section). -/
theorem C5_row_shape_order (raw : List Char) (st : LIState)
    (hn : pyStrip raw ≠ [])
    (hs : reMatch rxSection (pyStrip raw) = none)
    (hq : reMatch rxQtyNext (pyStrip raw) = none) :
    (∀ it, match_qty_unit_total (pyStrip raw) = some it →
      liStep st raw = liEmit st it) ∧
    (match_qty_unit_total (pyStrip raw) = none →
      ∀ it, match_xform (pyStrip raw) = some it → liStep st raw = liEmit st it) ∧
    (match_qty_unit_total (pyStrip raw) = none →
      match_xform (pyStrip raw) = none →
      ∀ it, match_weighted (pyStrip raw) = some it → liStep st raw = liEmit st it) ∧
    (match_qty_unit_total (pyStrip raw) = none →
      match_xform (pyStrip raw) = none →
      match_weighted (pyStrip raw) = none →
      ∀ it, match_simple (pyStrip raw) = some it → liStep st raw = liEmit st it) ∧
    (match_qty_unit_total (pyStrip raw) = none →
      match_xform (pyStrip raw) = none →
      match_weighted (pyStrip raw) = none →
      match_simple (pyStrip raw) = none → liStep st raw = st) := by
  have hstep : liStep st raw =
      match tryRowMatchers (pyStrip raw) with
      | some item => liEmit st item
      | none => st := by
    unfold liStep
    rw [if_neg hn, hs, hq]
  refine ⟨?_, ?_, ?_, ?_, ?_⟩
  · intro it h1
    rw [hstep]
    unfold tryRowMatchers
    rw [h1]
    rfl
  · intro h1 it h2
    rw [hstep]
    unfold tryRowMatchers
    rw [h1, h2]
    rfl
  · intro h1 h2 it h3
    rw [hstep]
    unfold tryRowMatchers
    rw [h1, h2, h3]
    rfl
  · intro h1 h2 h3 it h4
    rw [hstep]
    unfold tryRowMatchers
    rw [h1, h2, h3, h4]
    rfl
  · intro h1 h2 h3 h4
    rw [hstep]
    unfold tryRowMatchers
    rw [h1, h2, h3, h4]
    rfl

/-- C5 witness: the chain applied to a concrete quantity-unit-total row. -/
theorem C5_row_shape_order_witness :
    liStep { items := [], lastIdx := none, currentSection := none }
        "1 Gadget 2.00 4.00".data =
      liEmit { items := [], lastIdx := none, currentSection := none }
        { qty := some 1, desc := "Gadget",
          unit_price := { raw := "2.00", value := some 2, currency := none },
          line_total := { raw := "4.00", value := some 4, currency := none },
          sect := none } :=
  (C5_row_shape_order "1 Gadget 2.00 4.00".data
    { items := [], lastIdx := none, currentSection := none }
    (by decide) (by decide) (by decide)).1 _ (by decide)

/-! ## Claim C6 — the paystub scenario -/

/-- C6: the spec's paystub scenario classifies as a paystub and resolves
`net_pay.value = 1234.56` (via the loose net-pay scan, whose token is
`$1234.56`). -/
theorem C6_paystub_scenario :
    (extract_from_text c6Text).map LegacyOut.kind = some (some "paystub") ∧
    (extract_from_text c6Text).map LegacyOut.net_pay =
      some (some { raw := "$1234.56", value := some (mkRat 123456 100),
                   currency := some "USD" }) := by
  refine ⟨by decide, by decide⟩

/-! ## Claim C7 — OCR currency repair -/

/-- C7: `normalize_amount` rewrites a leading `S` or `5` (followed by an
optional space and a digit, not preceded by a digit or currency mark) to
`$`, yielding `$`-prefixed readings with values 17.94 and 0.95 and
currency `USD`; the embedded `5` of `1,234.56` is untouched. -/
theorem C7_ocr_repair :
    normalize_amount "S 17.94" =
      { raw := "$ 17.94", value := some (mkRat 1794 100), currency := some "USD" } ∧
    normalize_amount "5 0.95" =
      { raw := "$ 0.95", value := some (mkRat 95 100), currency := some "USD" } ∧
    fixCurrencyOcr "1,234.56".data = "1,234.56".data ∧
    normalize_amount "1,234.56" =
      { raw := "1,234.56", value := some (mkRat 123456 100), currency := none } := by
  refine ⟨by decide, by decide, by decide, by decide⟩

/-! ## Claim C8 — the document-type scorer -/

/-- C8: the scorer sums the table weights of the keywords present as
substrings of the lowercased text (once per distinct keyword) and
classifies `invoice` exactly when the invoice score is at least the
paystub score; a tie — including the all-zero tie on empty text — yields
`invoice`. -/
theorem C8_doc_type_scorer :
    (∀ text : String,
      (score text).invoice = claimKeywordSum INVOICE_TOKENS (lowerStr text.data) ∧
      (score text).paystub = claimKeywordSum PAYSTUB_TOKENS (lowerStr text.data) ∧
      ((score text).kind = "invoice" ↔ (score text).invoice ≥ (score text).paystub) ∧
      ((score text).kind = "invoice" ∨ (score text).kind = "paystub")) ∧
    score "" = { invoice := 0, paystub := 0, kind := "invoice" } := by
  refine ⟨?_, by decide⟩
  intro text
  refine ⟨keywordScore_eq _ _, keywordScore_eq _ _, ?_, ?_⟩
  · show (score text).kind = "invoice" ↔ _
    unfold score
    by_cases h : keywordScore INVOICE_TOKENS (lowerStr text.data) ≥
        keywordScore PAYSTUB_TOKENS (lowerStr text.data)
    · simp [h]
    · simp only [if_neg h]
      constructor
      · intro hk
        exact absurd hk (by decide)
      · intro hk
        exact absurd hk h
  · unfold score
    by_cases h : keywordScore INVOICE_TOKENS (lowerStr text.data) ≥
        keywordScore PAYSTUB_TOKENS (lowerStr text.data)
    · left
      simp [h]
    · right
      simp [h]

/-- C8 witness: the iff applied at a concrete tie. -/
theorem C8_doc_type_scorer_witness :
    (score "x").kind = "invoice" ↔ (score "x").invoice ≥ (score "x").paystub :=
  ((C8_doc_type_scorer.1 "x").2.2).1

/-! ## Claim C9 — date normalization -/

/-- C9: the ISO round trip, month-name and US formats normalize as the
spec states; an invalid calendar date yields `none`; and every non-`none`
result is the ISO rendering `YYYY-MM-DD` of a valid calendar date. -/
theorem C9_date_round_trip :
    to_iso_date "2021-05-17" = some "2021-05-17" ∧
    to_iso_date "Dec 31, 2024" = some "2024-12-31" ∧
    to_iso_date "12/31/2020" = some "2020-12-31" ∧
    to_iso_date "2020-13-01" = none ∧
    ∀ s r, to_iso_date s = some r →
      ∃ y mo d, validDate y mo d = true ∧ r = isoFormat y mo d := by
  refine ⟨by decide, by decide, by decide, by decide, ?_⟩
  intro s r h
  have hmdy : ∀ t, mdyResolve t = some r →
      ∃ y mo d, validDate y mo d = true ∧ r = isoFormat y mo d := by
    intro t ht
    unfold mdyResolve at ht
    split at ht
    · split at ht
      · split at ht
        · exact ⟨_, _, _, by assumption, (Option.some.inj ht).symm⟩
        · exact absurd ht (by simp)
      · split at ht
        · exact ⟨_, _, _, by assumption, (Option.some.inj ht).symm⟩
        · exact absurd ht (by simp)
    · exact absurd ht (by simp)
  unfold to_iso_date at h
  split at h
  · exact absurd h (by simp)
  · split at h
    · split at h
      · exact ⟨_, _, _, by assumption, (Option.some.inj h).symm⟩
      · exact absurd h (by simp)
    · split at h
      · split at h
        · split at h
          · exact ⟨_, _, _, by assumption, (Option.some.inj h).symm⟩
          · exact absurd h (by simp)
        · exact hmdy _ h
      · exact hmdy _ h

/-- C9 witness: the shape property applied at a concrete date. -/
theorem C9_date_round_trip_witness :
    ∃ y mo d, validDate y mo d = true ∧ "2021-05-17" = isoFormat y mo d :=
  C9_date_round_trip.2.2.2.2 "2021-05-17" "2021-05-17" (by decide)

/-! ## Claim C10 — the step-4 fallback -/

theorem foldl_stepMax_some (xs : List ℚ) (a : ℚ) :
    xs.foldl stepMax (some a) = some (xs.foldl max a) := by
  induction xs generalizing a with
  | nil => rfl
  | cons x xs ih => simp only [List.foldl_cons, stepMax]; exact ih (max a x)

theorem specMaxQ_eq_foldl (xs : List ℚ) :
    specMaxQ xs = xs.foldl stepMax none := by
  cases xs with
  | nil => rfl
  | cons x xs =>
    simp only [specMaxQ, List.foldl_cons, stepMax]
    exact (foldl_stepMax_some xs x).symm

theorem bestStep_fold (cs : List String) : ∀ b, bestInv b →
    bestInv (cs.foldl bestStep b) ∧
    (cs.foldl bestStep b).2 =
      (cs.filterMap (fun t => (normalize_amount t).value)).foldl stepMax b.2 := by
  induction cs with
  | nil => exact fun b hb => ⟨hb, rfl⟩
  | cons tok cs ih =>
    intro b hb
    cases hv : (normalize_amount tok).value with
    | none =>
      have hbs : bestStep b tok = b := by simp only [bestStep, hv]
      simp only [List.foldl_cons, List.filterMap_cons, hv, hbs]
      exact ih b hb
    | some v =>
      simp only [List.foldl_cons, List.filterMap_cons, hv]
      cases hb2 : b.2 with
      | none =>
        have hbs : bestStep b tok = (some tok, some v) := by
          simp only [bestStep, hv, hb2]
        rw [hbs]
        have hiv : bestInv (some tok, some v) := Or.inr ⟨tok, v, rfl, rfl, hv⟩
        refine ⟨(ih _ hiv).1, ?_⟩
        rw [(ih _ hiv).2]
        rfl
      | some bv =>
        by_cases hcmp : v > bv
        · have hbs : bestStep b tok = (some tok, some v) := by
            simp only [bestStep, hv, hb2, hcmp, if_true]
          rw [hbs]
          have hiv : bestInv (some tok, some v) := Or.inr ⟨tok, v, rfl, rfl, hv⟩
          refine ⟨(ih _ hiv).1, ?_⟩
          rw [(ih _ hiv).2]
          have hmax : stepMax (some bv) v = some v := by
            simp only [stepMax]
            rw [max_eq_right (le_of_lt hcmp)]
          rw [hmax]
        · have hbs : bestStep b tok = b := by
            simp only [bestStep, hv, hb2, hcmp, if_false]
          rw [hbs]
          refine ⟨(ih b hb).1, ?_⟩
          have h2 := (ih b hb).2
          rw [hb2] at h2
          rw [h2]
          have hmax : stepMax (some bv) v = some bv := by
            simp only [stepMax]
            rw [max_eq_left (le_of_not_lt hcmp)]
          rw [hmax]

theorem bestCandidate_value (cs : List String) :
    (norm_amount_token (bestCandidate cs)).value =
      specMaxQ (cs.filterMap (fun t => (normalize_amount t).value)) := by
  have h := bestStep_fold cs (none, none) (Or.inl ⟨rfl, rfl⟩)
  rw [specMaxQ_eq_foldl]
  unfold bestCandidate
  rcases h.1 with ⟨h1, h2⟩ | ⟨t, v, h1, h2, hv⟩
  · rw [h1, ← h.2, h2]
    rfl
  · rw [h1]
    have ht : t ≠ "" := by
      intro he
      rw [he] at hv
      have hz : (normalize_amount "").value = none := by decide
      rw [hz] at hv
      exact Option.noConfusion hv
    have hnt : norm_amount_token (some t) = normalize_amount t := by
      simp only [norm_amount_token, ht, if_false]
    rw [hnt, hv, ← h.2, h2]

/-- C10 (amended): in `extract_from_text`, when no net-pay amount is found
(which would take precedence), neither mangled labelled strategy matches,
and the mangled implied pattern does not match at all (so no
`AttributeError` is raised), the returned total is `_find_total_in_text`'s
step-4 pick: its value is the maximum of the normalized values of the
candidate tokens collected by the money, spaced-decimal, spaced-cents and
any-separator patterns (plus the labelled tail patterns) on lines not
suppressed by the negative-context rules; if no candidate exists, the
value is null. -/
theorem C10_fallback_max (text : String)
    (h1 : totalStep1 text = none) (h2 : totalStep2 text = none)
    (h3 : reSearch rxTotalImplied text.data = none)
    (h3a : totalStep3a (pySplitlines text.data) = none)
    (hnet : find_netpay_in_text text = none) :
    (extract_from_text text).map (fun o => o.total) =
      find_total_in_text text ∧
    (find_total_in_text text).map Amount.value =
      some (specMaxQ ((step4Candidates (pySplitlines text.data)).filterMap
        (fun tok => (normalize_amount tok).value))) ∧
    (step4Candidates (pySplitlines text.data) = [] →
      (find_total_in_text text).map Amount.value = some none) := by
  have hft : find_total_in_text text =
      some (norm_amount_token
        (bestCandidate (step4Candidates (pySplitlines text.data)))) := by
    simp only [find_total_in_text, totalStepsTail, h1, h2, h3, h3a]
  refine ⟨?_, ?_, ?_⟩
  · simp only [extract_from_text, hnet, hft, Option.map_some']
  · rw [hft]
    exact congrArg some (bestCandidate_value _)
  · intro hemp
    rw [hft, hemp]
    rfl

/-- C10 witness: the maximum property at a concrete input. -/
theorem C10_fallback_max_witness :
    (find_total_in_text c10Text).map Amount.value =
      some (specMaxQ ((step4Candidates (pySplitlines c10Text.data)).filterMap
        (fun tok => (normalize_amount tok).value))) :=
  (C10_fallback_max c10Text (by decide) (by decide) (by decide) (by decide)
    (by decide)).2.1

/-- C10 (counterexample): on `c10Text` all labelled strategies fail and
the only money-shaped token is `5.00`, yet the resolved total is `99.99`,
derived by the any-separator pattern from the bare digit run `9999` —
the fallback does not restrict itself to money-shaped tokens. -/
theorem C10_fallback_counterexample :
    totalStep1 c10Text = none ∧ totalStep2 c10Text = none ∧
    reSearch rxTotalImplied c10Text.data = none ∧
    totalStep3a (pySplitlines c10Text.data) = none ∧
    ((pySplitlines c10Text.data).flatMap (fun l =>
      (findIter rxMoney l).map
        (fun c => (normalize_amount (String.mk (capGroup 1 c))).value))) =
      [some 5] ∧
    (extract_from_text c10Text).map (fun o => o.total.value) =
      some (some (mkRat 9999 100)) := by
  refine ⟨by decide, by decide, by decide, by decide, by decide, by decide⟩

/-! ## Claim C3 — supporting lemmas -/

theorem findSome?_some_mem {α β : Type} (f : α → Option β) :
    ∀ (l : List α) (b : β), l.findSome? f = some b → ∃ a, a ∈ l ∧ f a = some b := by
  intro l
  induction l with
  | nil => intro b h; exact absurd h (by simp)
  | cons x xs ih =>
    intro b h
    rw [List.findSome?_cons] at h
    cases hx : f x with
    | some v =>
      rw [hx] at h
      exact ⟨x, List.mem_cons_self x xs, hx.trans h⟩
    | none =>
      rw [hx] at h
      obtain ⟨a, ha, hfa⟩ := ih b h
      exact ⟨a, List.mem_cons_of_mem x ha, hfa⟩

theorem digit_ne_comma {c : Char} (h : c.isDigit = true) : c ≠ ',' := by
  intro he
  rw [he] at h
  exact absurd h (by decide)

theorem digit_ne_minus {c : Char} (h : c.isDigit = true) : c ≠ '-' := by
  intro he
  rw [he] at h
  exact absurd h (by decide)

theorem mem_take_takeWhile {p : Char → Bool} :
    ∀ (l : List Char) (k : ℕ), k ≤ (l.takeWhile p).length →
      ∀ c ∈ l.take k, p c = true := by
  intro l
  induction l with
  | nil => intro k _ c hc; simp at hc
  | cons x xs ih =>
    intro k hk c hc
    cases k with
    | zero => simp at hc
    | succ k =>
      by_cases hp : p x
      · rw [List.takeWhile_cons, if_pos hp, List.length_cons] at hk
        simp only [List.take_succ_cons, List.mem_cons] at hc
        rcases hc with rfl | hc
        · exact hp
        · exact ih k (by omega) c hc
      · rw [List.takeWhile_cons, if_neg hp] at hk
        simp at hk

theorem commaGroupsParses_chars :
    ∀ (fuel : ℕ) (r c rr : List Char), (c, rr) ∈ commaGroupsParses r fuel →
      ∀ ch ∈ c, ch.isDigit = true ∨ ch = ',' := by
  intro fuel
  induction fuel with
  | zero =>
    intro r c rr h ch hch
    simp only [commaGroupsParses, List.mem_singleton, Prod.mk.injEq] at h
    rw [h.1] at hch
    simp at hch
  | succ fuel ih =>
    intro r c rr h ch hch
    unfold commaGroupsParses at h
    split at h
    · split at h
      · rw [List.mem_append] at h
        rcases h with h | h
        · rw [List.mem_map] at h
          obtain ⟨⟨c', rr'⟩, hmem, heq⟩ := h
          rw [Prod.mk.injEq] at heq
          rw [← heq.1] at hch
          simp only [List.cons_append, List.mem_cons, List.mem_append] at hch
          rcases hch with rfl | hch | hch
          · right; rfl
          · left
            rename_i r' hds
            have h3 : (3 : ℕ) ≤ (r'.takeWhile Char.isDigit).length := by omega
            exact mem_take_takeWhile r' 3 h3 ch hch
          · exact ih _ _ _ hmem ch hch
        · simp only [List.mem_singleton, Prod.mk.injEq] at h
          rw [h.1] at hch
          simp at hch
      · simp only [List.mem_singleton, Prod.mk.injEq] at h
        rw [h.1] at hch
        simp at hch
    · simp only [List.mem_singleton, Prod.mk.injEq] at h
      rw [h.1] at hch
      simp at hch

theorem groupedIntParses_spec (l p rest : List Char)
    (h : (p, rest) ∈ groupedIntParses l) :
    ∃ base grs, p = base ++ grs ∧ base ≠ [] ∧
      (∀ c ∈ base, c.isDigit = true) ∧
      (∀ c ∈ grs, c.isDigit = true ∨ c = ',') := by
  unfold groupedIntParses at h
  rw [List.mem_flatMap] at h
  obtain ⟨k, hk, hmem⟩ := h
  rw [List.mem_map] at hmem
  obtain ⟨⟨c, rr⟩, hcg, heq⟩ := hmem
  rw [Prod.mk.injEq] at heq
  have hk1 : 1 ≤ k ∧ k ≤ (l.takeWhile Char.isDigit).length := by
    rw [List.mem_map] at hk
    obtain ⟨i, hi, hke⟩ := hk
    rw [List.mem_range] at hi
    have hm := Nat.min_le_left (l.takeWhile Char.isDigit).length 3
    omega
  refine ⟨l.take k, c, ?_, ?_, mem_take_takeWhile l k hk1.2,
    commaGroupsParses_chars _ _ _ _ hcg⟩
  · rw [← heq.1]
  · have hlen : 0 < l.length := by
      rcases Nat.lt_or_ge 0 l.length with h0 | h0
      · exact h0
      · have hnil : l = [] := List.eq_nil_of_length_eq_zero (by omega)
        rw [hnil] at hk1
        simp at hk1
        omega
    cases l with
    | nil => simp at hlen
    | cons x xs =>
      cases k with
      | zero => omega
      | succ k => simp

theorem decParse_spec (l d r : List Char) (h : decParse l = some (d, r)) :
    ∃ a b, d = ['.', a, b] ∧ a.isDigit = true ∧ b.isDigit = true := by
  unfold decParse at h
  split at h
  · rename_i a b rest
    split at h
    · rename_i hab
      rw [Bool.and_eq_true] at hab
      obtain ⟨he1, _⟩ := Prod.mk.injEq .. ▸ (Option.some.inj h)
      exact ⟨a, b, he1.symm, hab.1, hab.2⟩
    · exact absurd h (by simp)
  · exact absurd h (by simp)

theorem dotCoreAux_spec (sgn t tok : List Char) (h : dotCoreAux sgn t = some tok) :
    ∃ p a b, tok = sgn ++ p ++ ['.', a, b] ∧
      (∃ base grs, p = base ++ grs ∧ base ≠ [] ∧
        (∀ c ∈ base, c.isDigit = true) ∧
        (∀ c ∈ grs, c.isDigit = true ∨ c = ',')) ∧
      a.isDigit = true ∧ b.isDigit = true := by
  unfold dotCoreAux at h
  obtain ⟨⟨ip, rest⟩, hmem, hf⟩ := findSome?_some_mem _ _ _ h
  simp only at hf
  split at hf
  · exact absurd hf (by simp)
  · cases hdp : decParse rest with
    | none => rw [hdp] at hf; exact absurd hf (by simp)
    | some dr =>
      rw [hdp] at hf
      obtain ⟨dec, r'⟩ := dr
      obtain ⟨a, b, hdeq, ha, hb⟩ := decParse_spec rest dec r' hdp
      refine ⟨ip, a, b, ?_, groupedIntParses_spec _ _ _ hmem, ha, hb⟩
      have htk : tok = sgn ++ ip ++ dec := by
        simpa using hf.symm
      rw [htk, hdeq]

theorem dotCoreAt_spec (l tok : List Char) (h : dotCoreAt l = some tok) :
    ∃ sgn p a b, tok = sgn ++ p ++ ['.', a, b] ∧
      (sgn = [] ∨ (sgn = ['-'] ∧ '-' ∈ l)) ∧
      (∃ base grs, p = base ++ grs ∧ base ≠ [] ∧
        (∀ c ∈ base, c.isDigit = true) ∧
        (∀ c ∈ grs, c.isDigit = true ∨ c = ',')) ∧
      a.isDigit = true ∧ b.isDigit = true := by
  cases l with
  | nil =>
    unfold dotCoreAt at h
    obtain ⟨p, a, b, h1, h2, h3, h4⟩ := dotCoreAux_spec _ _ _ h
    exact ⟨[], p, a, b, h1, Or.inl rfl, h2, h3, h4⟩
  | cons c r =>
    have h' : (if c = '-' then dotCoreAux ['-'] r else dotCoreAux [] (c :: r))
        = some tok := h
    by_cases hc : c = '-'
    · rw [if_pos hc] at h'
      obtain ⟨p, a, b, h1, h2, h3, h4⟩ := dotCoreAux_spec _ _ _ h'
      exact ⟨['-'], p, a, b, h1,
        Or.inr ⟨rfl, by rw [hc]; exact List.mem_cons_self _ _⟩, h2, h3, h4⟩
    · rw [if_neg hc] at h'
      obtain ⟨p, a, b, h1, h2, h3, h4⟩ := dotCoreAux_spec _ _ _ h'
      exact ⟨[], p, a, b, h1, Or.inl rfl, h2, h3, h4⟩

theorem dotSearch_spec :
    ∀ (l tok : List Char), dotSearch l = some tok →
      ∃ sgn p a b, tok = sgn ++ p ++ ['.', a, b] ∧
        (sgn = [] ∨ (sgn = ['-'] ∧ '-' ∈ l)) ∧
        (∃ base grs, p = base ++ grs ∧ base ≠ [] ∧
          (∀ c ∈ base, c.isDigit = true) ∧
          (∀ c ∈ grs, c.isDigit = true ∨ c = ',')) ∧
        a.isDigit = true ∧ b.isDigit = true := by
  intro l
  induction l with
  | nil => intro tok h; exact absurd h (by simp [dotSearch])
  | cons x xs ih =>
    intro tok h
    unfold dotSearch at h
    split at h
    · rename_i m hm
      obtain ⟨sgn, p, a, b, h1, h2, h3, h4, h5⟩ := dotCoreAt_spec _ _ hm
      exact ⟨sgn, p, a, b, (Option.some.inj h) ▸ h1, h2, h3, h4, h5⟩
    · obtain ⟨sgn, p, a, b, h1, h2, h3, h4, h5⟩ := ih tok h
      refine ⟨sgn, p, a, b, h1, ?_, h3, h4, h5⟩
      rcases h2 with h2 | ⟨h2a, h2b⟩
      · exact Or.inl h2
      · exact Or.inr ⟨h2a, List.mem_cons_of_mem x h2b⟩

theorem dotShapeHead_core (l : List Char) (h : dotShapeHead l = true) :
    ∃ d a b rest, l = d :: '.' :: a :: b :: rest ∧
      d.isDigit = true ∧ a.isDigit = true ∧ b.isDigit = true := by
  unfold dotShapeHead at h
  split at h
  · rename_i d a b rest
    rw [Bool.and_eq_true, Bool.and_eq_true] at h
    exact ⟨d, a, b, rest, rfl, h.1.1, h.1.2, h.2⟩
  · exact absurd h (by decide)

theorem dotCoreAux_shape (sgn : List Char) (d a b : Char) (rest : List Char)
    (hd : d.isDigit = true) (ha : a.isDigit = true) (hb : b.isDigit = true) :
    (dotCoreAux sgn (d :: '.' :: a :: b :: rest)).isSome = true := by
  have hrun : (d :: '.' :: a :: b :: rest).takeWhile Char.isDigit = [d] := by
    rw [List.takeWhile_cons, if_pos hd, List.takeWhile_cons]
    simp
  unfold dotCoreAux groupedIntParses
  rw [hrun]
  simp only [List.length_cons, List.length_nil]
  have hmin : min 1 3 = 1 := by decide
  rw [hmin]
  simp only [List.range_succ, List.range_zero, List.nil_append, List.map_cons,
    List.map_nil, List.flatMap_cons, List.flatMap_nil, List.take_succ_cons,
    List.take_zero, List.drop_succ_cons, List.drop_zero]
  unfold commaGroupsParses
  simp only [List.length_cons]
  simp only [List.map_cons, List.map_nil, List.append_nil, List.findSome?_cons]
  simp only [decParse, ha, hb, Bool.and_self, if_true]
  simp [ha, hb]

theorem dotCoreAt_of_shape (l : List Char) (h : dotShapeHead l = true) :
    (dotCoreAt l).isSome = true := by
  obtain ⟨d, a, b, rest, heq, hd, ha, hb⟩ := dotShapeHead_core _ h
  subst heq
  by_cases hc : d = '-'
  · rw [hc] at hd
    exact absurd hd (by decide)
  · show (if d = '-' then dotCoreAux ['-'] ('.' :: a :: b :: rest)
        else dotCoreAux [] (d :: '.' :: a :: b :: rest)).isSome = true
    rw [if_neg hc]
    exact dotCoreAux_shape [] d a b rest hd ha hb

theorem containsDot_dotSearch :
    ∀ (l : List Char), containsDotDecimal l = true → (dotSearch l).isSome = true := by
  intro l
  induction l with
  | nil => intro h; exact absurd h (by decide)
  | cons x xs ih =>
    intro h
    unfold containsDotDecimal at h
    rw [Bool.or_eq_true] at h
    unfold dotSearch
    rcases h with hs | hr
    · have hsome := dotCoreAt_of_shape _ hs
      cases hc : dotCoreAt (x :: xs) with
      | none => rw [hc] at hsome; exact absurd hsome (by decide)
      | some m => rfl
    · cases hc : dotCoreAt (x :: xs) with
      | none => exact ih hr
      | some m => rfl

theorem takeWhile_all_append {p : Char → Bool} :
    ∀ (ds : List Char), (∀ c ∈ ds, p c = true) →
      ∀ (rest : List Char), (rest = [] ∨ ∃ x r, rest = x :: r ∧ p x = false) →
        (ds ++ rest).takeWhile p = ds := by
  intro ds
  induction ds with
  | nil =>
    intro _ rest hr
    rcases hr with rfl | ⟨x, r, rfl, hx⟩
    · rfl
    · simp [List.takeWhile_cons, hx]
  | cons c cs ih =>
    intro hds rest hr
    have hc : p c = true := hds c (List.mem_cons_self c cs)
    rw [List.cons_append, List.takeWhile_cons, if_pos hc,
      ih (fun x hx => hds x (List.mem_cons_of_mem c hx)) rest hr]

theorem parsePyFloat_digits_dot (ds : List Char) (a b : Char)
    (hne : ds ≠ []) (hds : ∀ c ∈ ds, c.isDigit = true)
    (ha : a.isDigit = true) (hb : b.isDigit = true) :
    (parsePyFloat (ds ++ ['.', a, b])).isSome = true := by
  obtain ⟨h0, t0, rfl⟩ : ∃ h0 t0, ds = h0 :: t0 := by
    cases ds with
    | nil => exact absurd rfl hne
    | cons h0 t0 => exact ⟨h0, t0, rfl⟩
  have hh : h0.isDigit = true := hds h0 (List.mem_cons_self _ _)
  have hnm : h0 ≠ '-' := digit_ne_minus hh
  have htw : ((h0 :: t0) ++ ['.', a, b]).takeWhile Char.isDigit = h0 :: t0 :=
    takeWhile_all_append _ hds _ (Or.inr ⟨'.', [a, b], rfl, by decide⟩)
  rw [List.cons_append]
  show (if h0 = '-' then parsePyFloatAux true (t0 ++ ['.', a, b])
      else parsePyFloatAux false (h0 :: (t0 ++ ['.', a, b]))).isSome = true
  rw [if_neg hnm, ← List.cons_append]
  unfold parsePyFloatAux
  rw [htw]
  have hdrop : ((h0 :: t0) ++ ['.', a, b]).drop (h0 :: t0).length = ['.', a, b] :=
    List.drop_left _ _
  rw [hdrop]
  have htw2 : List.takeWhile Char.isDigit [a, b] = [a, b] := by
    rw [List.takeWhile_cons, if_pos ha, List.takeWhile_cons, if_pos hb]
    rfl
  simp [htw2]

theorem mem_pyStrip {c : Char} {l : List Char} (h : c ∈ pyStrip l) : c ∈ l := by
  unfold pyStrip at h
  rw [List.mem_reverse] at h
  have h1 := (show List.Sublist ((l.dropWhile isPySpace).reverse.dropWhile isPySpace)
      ((l.dropWhile isPySpace).reverse) from List.dropWhile_sublist isPySpace).mem h
  rw [List.mem_reverse] at h1
  exact (List.dropWhile_sublist isPySpace).mem h1

theorem head?_pyStrip_mem {c : Char} {l : List Char}
    (h : (pyStrip l).head? = some c) : c ∈ l := by
  cases hp : pyStrip l with
  | nil => rw [hp] at h; exact absurd h (by simp)
  | cons x xs =>
    rw [hp] at h
    have : c = x := by simpa using h.symm
    exact mem_pyStrip (by rw [hp, this]; exact List.mem_cons_self x xs)

theorem filter_all_digits {ds : List Char} (h : ∀ c ∈ ds, c.isDigit = true) :
    ds.filter (fun c => c ≠ ',') = ds := by
  induction ds with
  | nil => rfl
  | cons x xs ih =>
    have hx := h x (List.mem_cons_self x xs)
    rw [List.filter_cons]
    rw [if_pos (by simpa using digit_ne_comma hx)]
    rw [ih (fun c hc => h c (List.mem_cons_of_mem x hc))]

theorem filter_digits_comma {grs : List Char}
    (h : ∀ c ∈ grs, c.isDigit = true ∨ c = ',') :
    ∀ c ∈ grs.filter (fun c => c ≠ ','), c.isDigit = true := by
  intro c hc
  rw [List.mem_filter] at hc
  rcases h c hc.1 with hd | hcm
  · exact hd
  · exact absurd (by simpa using hc.2) (by rw [hcm]; simp)

/-! ## Claim C3 — the amount normalizer -/

/-- C3 (counterexample): the `raw` field is not the original input
verbatim — it is the OCR-repaired, whitespace-stripped text (here the
surrounding blanks of `" abc "` are gone, and the value is null). -/
theorem C3_raw_not_verbatim_counterexample :
    (normalize_amount " abc ").raw ≠ " abc " ∧
    (normalize_amount " abc ").raw = "abc" ∧
    (normalize_amount " abc ").value = none := by
  refine ⟨by decide, by decide, by decide⟩

set_option maxHeartbeats 1600000 in
/-- C3 (amended): `normalize_amount` is a total function returning the
`{raw, value, currency}` triplet (never raising); `raw` preserves the
OCR-repaired, whitespace-stripped input rather than the verbatim input;
and `value` is null only when no numeric token can be parsed: whenever the
strict grammar fails but the numeric part contains a digit-dot-digit-digit
substring and no sign character, the dot-decimal fallback recovers a
value. -/
theorem C3_normalizer_contract (s : String) :
    (normalize_amount s).raw = String.mk (normPrep s) ∧
    (numRxMatch (numPartOf (normPrep s)) = none →
     containsDotDecimal (numPartOf (normPrep s)) = true →
     '-' ∉ numPartOf (normPrep s) →
     '(' ∉ numPartOf (normPrep s) →
     (normalize_amount s).value ≠ none) := by
  constructor
  · unfold normalize_amount
    by_cases h : normPrep s = []
    · rw [if_pos h, h]
    · rw [if_neg h]
      unfold normAmountCore
      split
      · rfl
      · split
        · rfl
        · split
          · rfl
          · rfl
  · intro hnum hdot hminus hparen
    have hne : normPrep s ≠ [] := by
      intro he
      rw [he] at hdot
      have : numPartOf ([] : List Char) = [] := by decide
      rw [this] at hdot
      exact absurd hdot (by decide)
    obtain ⟨tok, htok⟩ : ∃ tok, dotSearch (numPartOf (normPrep s)) = some tok := by
      have := containsDot_dotSearch _ hdot
      cases hc : dotSearch (numPartOf (normPrep s)) with
      | none => rw [hc] at this; exact absurd this (by decide)
      | some m => exact ⟨m, rfl⟩
    obtain ⟨sgn, p, a, b, hteq, hsgn, ⟨base, grs, hpeq, hbne, hbd, hgd⟩, ha, hb⟩ :=
      dotSearch_spec _ _ htok
    have hsgn0 : sgn = [] := by
      rcases hsgn with h | ⟨_, hmem⟩
      · exact h
      · exact absurd hmem hminus
    have hcond : ¬((pyStrip (numPartOf (normPrep s))).head? = some '(' ∨
        (pyStrip (numPartOf (normPrep s))).head? = some '-') := by
      rintro (hc | hc)
      · exact absurd (head?_pyStrip_mem hc) hparen
      · exact absurd (head?_pyStrip_mem hc) hminus
    unfold normalize_amount
    rw [if_neg hne]
    unfold normAmountCore
    simp only [hnum, htok]
    rw [if_neg hcond]
    show parsePyFloat (([] : List Char) ++ tok.filter (fun c => c ≠ ',')) ≠ none
    have hfil : tok.filter (fun c => c ≠ ',') =
        (base ++ grs.filter (fun c => c ≠ ',')) ++ ['.', a, b] := by
      have hd3 : List.filter (fun c => c ≠ ',') ['.', a, b] = ['.', a, b] := by
        have had : a ≠ ',' := digit_ne_comma ha
        have hbd2 : b ≠ ',' := digit_ne_comma hb
        simp [List.filter_cons, had, hbd2]
      rw [hteq, hsgn0, hpeq]
      simp only [List.nil_append, List.filter_append, filter_all_digits hbd, hd3,
        List.append_assoc]
    rw [List.nil_append, hfil]
    have hsome := parsePyFloat_digits_dot (base ++ grs.filter (fun c => c ≠ ',')) a b
      (by simp [hbne]) ?_ ha hb
    · cases hp : parsePyFloat ((base ++ grs.filter (fun c => c ≠ ',')) ++ ['.', a, b]) with
      | none => rw [hp] at hsome; exact absurd hsome (by decide)
      | some v => simp
    · intro c hc
      rw [List.mem_append] at hc
      rcases hc with hc | hc
      · exact hbd c hc
      · exact filter_digits_comma hgd c hc

/-- C3 witness: a string whose numeric part defeats the strict grammar but
contains a dot-decimal token. -/
theorem C3_normalizer_contract_witness :
    (normalize_amount "x 1.23").raw = String.mk (normPrep "x 1.23") ∧
    (normalize_amount "x 1.23").value ≠ none :=
  ⟨(C3_normalizer_contract "x 1.23").1,
   (C3_normalizer_contract "x 1.23").2 (by decide) (by decide) (by decide) (by decide)⟩

/-! ## Claim C4 — negative-context (savings) exclusion

Engine inversion lemmas: every constructor of `Rx` admits an inversion of
`runRx` membership exposing the consumed segment of the input. -/

theorem RState_adv_rest (st : RState) (k : ℕ) : (st.adv k).rest = st.rest.drop k := by
  unfold RState.adv
  by_cases h : k = 0
  · rw [if_pos h, h, List.drop_zero]
  · rw [if_neg h]

theorem runStar_suffix (runA : RState → List (Caps × RState))
    (hA : ∀ st r, r ∈ runA st → r.2.rest <:+ st.rest) :
    ∀ (fuel : ℕ) (st : RState) (r : Caps × RState),
      r ∈ runStar runA fuel st → r.2.rest <:+ st.rest := by
  intro fuel
  induction fuel with
  | zero =>
    intro st r h
    simp only [runStar, List.mem_singleton] at h
    rw [h]
  | succ fuel ih =>
    intro st r h
    unfold runStar at h
    rw [List.mem_append] at h
    rcases h with h | h
    · rw [List.mem_flatMap] at h
      obtain ⟨ra, hra, hr⟩ := h
      rw [List.mem_filter] at hra
      exact (ih _ _ hr).trans (hA _ _ hra.1)
    · simp only [List.mem_singleton] at h
      rw [h]

theorem runRx_cls_mem {p : Char → Bool} {st : RState} {r : Caps × RState}
    (h : r ∈ runRx (.cls p) st) :
    ∃ c rest', st.rest = c :: rest' ∧ p c = true ∧ r = ([], ⟨some c, rest'⟩) := by
  cases hrest : st.rest with
  | nil =>
    have he : runRx (.cls p) st = [] := by
      unfold runRx
      rw [hrest]
    rw [he] at h
    simp at h
  | cons c rest' =>
    by_cases hp : p c = true
    · have he : runRx (.cls p) st =
          (if p c then [(([] : Caps), (⟨some c, rest'⟩ : RState))] else []) := by
        unfold runRx
        rw [hrest]
      rw [he, if_pos hp] at h
      simp only [List.mem_singleton] at h
      exact ⟨c, rest', rfl, hp, h⟩
    · have he : runRx (.cls p) st =
          (if p c then [(([] : Caps), (⟨some c, rest'⟩ : RState))] else []) := by
        unfold runRx
        rw [hrest]
      rw [he, if_neg hp] at h
      simp at h

theorem runRx_eps_mem {st : RState} {r : Caps × RState}
    (h : r ∈ runRx .eps st) : r = ([], st) := by
  simp only [runRx, List.mem_singleton] at h
  exact h

theorem runRx_seq_mem {a b : Rx} {st : RState} {r : Caps × RState}
    (h : r ∈ runRx (.seq a b) st) :
    ∃ ra rb, ra ∈ runRx a st ∧ rb ∈ runRx b ra.2 ∧ r.2 = rb.2 := by
  unfold runRx at h
  rw [List.mem_flatMap] at h
  obtain ⟨ra, hra, hr⟩ := h
  rw [List.mem_map] at hr
  obtain ⟨rb, hrb, heq⟩ := hr
  exact ⟨ra, rb, hra, hrb, by rw [← heq]⟩

theorem runRx_alt_mem {a b : Rx} {st : RState} {r : Caps × RState}
    (h : r ∈ runRx (.alt a b) st) : r ∈ runRx a st ∨ r ∈ runRx b st := by
  unfold runRx at h
  rw [List.mem_append] at h
  exact h

theorem runRx_grp_mem {n : ℕ} {a : Rx} {st : RState} {r : Caps × RState}
    (h : r ∈ runRx (.grp n a) st) : ∃ ra, ra ∈ runRx a st ∧ r.2 = ra.2 := by
  unfold runRx at h
  rw [List.mem_map] at h
  obtain ⟨ra, hra, heq⟩ := h
  exact ⟨ra, hra, by rw [← heq]⟩

theorem mem_ite_singleton {α : Type} {c : Prop} [Decidable c] {x y : α}
    (h : y ∈ (if c then [x] else ([] : List α))) : y = x := by
  by_cases hc : c
  · rw [if_pos hc] at h
    simpa using h
  · rw [if_neg hc] at h
    simp at h

theorem runRx_repc_mem {g : Bool} {p : Char → Bool} {lo : ℕ} {hi : Option ℕ}
    {st : RState} {r : Caps × RState} (h : r ∈ runRx (.repc g p lo hi) st) :
    ∃ k, lo ≤ k ∧ k ≤ (st.rest.takeWhile p).length ∧
      (∀ n, hi = some n → k ≤ n) ∧ r.2.rest = st.rest.drop k := by
  have he : runRx (.repc g p lo hi) st =
      (if lo > min (st.rest.takeWhile p).length (hi.getD (st.rest.takeWhile p).length)
       then []
       else ((List.range (min (st.rest.takeWhile p).length
              (hi.getD (st.rest.takeWhile p).length) + 1 - lo)).map
            (fun i => if g then min (st.rest.takeWhile p).length
              (hi.getD (st.rest.takeWhile p).length) - i else lo + i)).map
          (fun k => (([] : Caps), st.adv k))) := rfl
  rw [he] at h
  by_cases hlt : lo > min (st.rest.takeWhile p).length
      (hi.getD (st.rest.takeWhile p).length)
  · rw [if_pos hlt] at h
    simp at h
  · rw [if_neg hlt] at h
    have hle := Nat.le_of_not_lt hlt
    rw [List.mem_map] at h
    obtain ⟨k, hk, heq⟩ := h
    rw [List.mem_map] at hk
    obtain ⟨i, hi2, hki⟩ := hk
    rw [List.mem_range] at hi2
    have hkb : lo ≤ k ∧ k ≤ min (st.rest.takeWhile p).length
        (hi.getD (st.rest.takeWhile p).length) := by
      rcases Bool.eq_false_or_eq_true g with hg | hg <;> rw [hg] at hki <;>
        simp at hki <;> omega
    refine ⟨k, hkb.1, ?_, ?_, ?_⟩
    · have h2 := hkb.2
      omega
    · intro n hn
      have h2 := hkb.2
      rw [hn] at h2
      simp at h2
      omega
    · rw [← heq]
      exact RState_adv_rest st k

theorem runRx_wb_mem {st : RState} {r : Caps × RState}
    (h : r ∈ runRx .wb st) : r = ([], st) :=
  mem_ite_singleton h

theorem runRx_bol_mem {ml : Bool} {st : RState} {r : Caps × RState}
    (h : r ∈ runRx (.bol ml) st) : r = ([], st) := by
  unfold runRx at h
  split at h
  · simpa using h
  · exact mem_ite_singleton h

theorem runRx_eol_mem {ml : Bool} {st : RState} {r : Caps × RState}
    (h : r ∈ runRx (.eol ml) st) : r = ([], st) := by
  unfold runRx at h
  split at h
  · simpa using h
  · exact mem_ite_singleton h
  · simp at h

theorem runRx_nla_mem {a : Rx} {st : RState} {r : Caps × RState}
    (h : r ∈ runRx (.nla a) st) : r = ([], st) :=
  mem_ite_singleton h

theorem runRx_suffix : ∀ (rx : Rx) (st : RState) (r : Caps × RState),
    r ∈ runRx rx st → r.2.rest <:+ st.rest := by
  intro rx
  induction rx with
  | eps =>
    intro st r h
    rw [runRx_eps_mem h]
  | cls p =>
    intro st r h
    obtain ⟨c, rest', hst, _, hr⟩ := runRx_cls_mem h
    rw [hr, hst]
    exact List.suffix_cons c rest'
  | seq a b iha ihb =>
    intro st r h
    obtain ⟨ra, rb, hra, hrb, hr2⟩ := runRx_seq_mem h
    rw [hr2]
    exact (ihb _ _ hrb).trans (iha _ _ hra)
  | alt a b iha ihb =>
    intro st r h
    rcases runRx_alt_mem h with h | h
    · exact iha _ _ h
    · exact ihb _ _ h
  | repc g p lo hi =>
    intro st r h
    obtain ⟨k, _, _, _, hrest⟩ := runRx_repc_mem h
    rw [hrest]
    exact List.drop_suffix k st.rest
  | star a ih =>
    intro st r h
    exact runStar_suffix (runRx a) (ih) _ st r h
  | grp n a ih =>
    intro st r h
    obtain ⟨ra, hra, hr2⟩ := runRx_grp_mem h
    rw [hr2]
    exact ih _ _ hra
  | nla a ih =>
    intro st r h
    rw [runRx_nla_mem h]
  | wb =>
    intro st r h
    rw [runRx_wb_mem h]
  | bol ml =>
    intro st r h
    rw [runRx_bol_mem h]
  | eol ml =>
    intro st r h
    rw [runRx_eol_mem h]

theorem runRx_star_mem {a : Rx} {st : RState} {r : Caps × RState}
    (h : r ∈ runRx (.star a) st) :
    r.2 = st ∨ ∃ ra, ra ∈ runRx a st ∧ ra.2.rest.length < st.rest.length ∧
      r.2.rest <:+ ra.2.rest := by
  unfold runRx at h
  cases hfuel : st.rest.length with
  | zero =>
    rw [hfuel] at h
    simp only [runStar, List.mem_singleton] at h
    rw [h]
    exact Or.inl rfl
  | succ fuel =>
    rw [hfuel] at h
    unfold runStar at h
    rw [List.mem_append] at h
    rcases h with h | h
    · rw [List.mem_flatMap] at h
      obtain ⟨ra, hra, hr⟩ := h
      rw [List.mem_filter] at hra
      refine Or.inr ⟨ra, hra.1, ?_, runStar_suffix (runRx a) (runRx_suffix a) _ _ _ hr⟩
      have := hra.2
      simp only [decide_eq_true_eq] at this
      omega
    · simp only [List.mem_singleton] at h
      rw [h]
      exact Or.inl rfl

theorem repc_consumed {g : Bool} {p : Char → Bool} {lo : ℕ} {hi : Option ℕ}
    {st : RState} {r : Caps × RState} (h : r ∈ runRx (.repc g p lo hi) st) :
    ∃ t, st.rest = t ++ r.2.rest ∧ (∀ c ∈ t, p c = true) ∧ lo ≤ t.length ∧
      (∀ n, hi = some n → t.length ≤ n) := by
  obtain ⟨k, hlo, hk, hhi, hrest⟩ := runRx_repc_mem h
  have hkle : k ≤ st.rest.length := hk.trans (List.takeWhile_prefix p).length_le
  refine ⟨st.rest.take k, ?_, mem_take_takeWhile _ _ hk, ?_, ?_⟩
  · rw [hrest, List.take_append_drop]
  · rw [List.length_take]
    omega
  · intro n hn
    rw [List.length_take]
    have := hhi n hn
    omega

theorem runRx_lit_mem : ∀ (cs : List Char) (st : RState) (r : Caps × RState),
    r ∈ runRx (rxSeq (cs.map rxChar)) st →
    ∃ t, st.rest = t ++ r.2.rest ∧ t.map lowerChar = cs.map lowerChar := by
  intro cs
  induction cs with
  | nil =>
    intro st r h
    rw [runRx_eps_mem h]
    exact ⟨[], by simp, rfl⟩
  | cons c cs ih =>
    intro st r h
    obtain ⟨ra, rb, hra, hrb, hr2⟩ := runRx_seq_mem h
    obtain ⟨x, rest', hst, hx, hra2⟩ := runRx_cls_mem hra
    obtain ⟨t, ht, hmap⟩ := ih _ _ hrb
    rw [hra2] at ht
    refine ⟨x :: t, ?_, ?_⟩
    · rw [hst, hr2, List.cons_append, ← ht]
    · simp only [List.map_cons, hmap]
      have hlx : lowerChar x = lowerChar c := by
        simpa using hx
      rw [hlx]

theorem reqPred_mem (p : Char → Bool) : ∀ (rx : Rx) (st : RState) (r : Caps × RState),
    r ∈ runRx rx st → ReqPred p rx → ∃ c ∈ st.rest, p c = true := by
  intro rx
  induction rx with
  | eps => intro st r _ hreq; exact hreq.elim
  | cls q =>
    intro st r h hreq
    obtain ⟨c, rest', hst, hc, _⟩ := runRx_cls_mem h
    exact ⟨c, by rw [hst]; exact List.mem_cons_self _ _, hreq c hc⟩
  | seq a b iha ihb =>
    intro st r h hreq
    obtain ⟨ra, rb, hra, hrb, _⟩ := runRx_seq_mem h
    rcases hreq with hq | hq
    · exact iha _ _ hra hq
    · obtain ⟨c, hc, hd⟩ := ihb _ _ hrb hq
      exact ⟨c, (runRx_suffix a st ra hra).subset hc, hd⟩
  | alt a b iha ihb =>
    intro st r h hreq
    rcases runRx_alt_mem h with h | h
    · exact iha _ _ h hreq.1
    · exact ihb _ _ h hreq.2
  | repc g q lo hi =>
    intro st r h hreq
    obtain ⟨t, hdec, hall, hlen, _⟩ := repc_consumed h
    cases t with
    | nil => exact absurd (Nat.le_trans hreq.1 hlen) (by decide)
    | cons x xs =>
      exact ⟨x, by rw [hdec]; exact List.mem_append_left _ (List.mem_cons_self _ _),
        hreq.2 x (hall x (List.mem_cons_self _ _))⟩
  | star a ih => intro st r _ hreq; exact hreq.elim
  | grp n a ih =>
    intro st r h hreq
    obtain ⟨ra, hra, _⟩ := runRx_grp_mem h
    exact ih _ _ hra hreq
  | nla a ih => intro st r _ hreq; exact hreq.elim
  | wb => intro st r _ hreq; exact hreq.elim
  | bol ml => intro st r _ hreq; exact hreq.elim
  | eol ml => intro st r _ hreq; exact hreq.elim

theorem reqDigit_mem (rx : Rx) (st : RState) (r : Caps × RState)
    (h : r ∈ runRx rx st) (hreq : ReqDigit rx) :
    ∃ c ∈ st.rest, c.isDigit = true :=
  reqPred_mem Char.isDigit rx st r h hreq

theorem runRx_predFree {p : Char → Bool} {rx : Rx} {st : RState}
    (hreq : ReqPred p rx) (hdf : ∀ c ∈ st.rest, p c = false) :
    runRx rx st = [] := by
  rw [List.eq_nil_iff_forall_not_mem]
  intro r hr
  obtain ⟨c, hc, hd⟩ := reqPred_mem p rx st r hr hreq
  rw [hdf c hc] at hd
  exact Bool.noConfusion hd

theorem runRx_digitFree {rx : Rx} {st : RState} (hreq : ReqDigit rx)
    (hdf : ∀ c ∈ st.rest, c.isDigit = false) : runRx rx st = [] := by
  rw [List.eq_nil_iff_forall_not_mem]
  intro r hr
  obtain ⟨c, hc, hd⟩ := reqDigit_mem rx st r hr hreq
  rw [hdf c hc] at hd
  exact Bool.noConfusion hd

theorem reSearchFrom_digitFree {rx : Rx} (hreq : ReqDigit rx) :
    ∀ (rest : List Char), (∀ c ∈ rest, c.isDigit = false) →
      ∀ (left : Option Char), reSearchFrom rx left rest = none := by
  intro rest
  induction rest with
  | nil =>
    intro hdf left
    unfold reSearchFrom
    rw [@runRx_digitFree _ ⟨left, []⟩ hreq hdf]
    rfl
  | cons c r ih =>
    intro hdf left
    unfold reSearchFrom
    rw [@runRx_digitFree _ ⟨left, c :: r⟩ hreq hdf]
    exact ih (fun x hx => hdf x (List.mem_cons_of_mem c hx)) (some c)

theorem reSearch_digitFree {rx : Rx} (hreq : ReqDigit rx) {s : List Char}
    (hdf : ∀ c ∈ s, c.isDigit = false) : reSearch rx s = none :=
  reSearchFrom_digitFree hreq s hdf none

theorem findIterFrom_digitFree {rx : Rx} (hreq : ReqDigit rx) {s : List Char}
    (hdf : ∀ c ∈ s, c.isDigit = false) :
    ∀ (fuel : ℕ) (st : RState), st.rest <:+ s → findIterFrom rx fuel st = [] := by
  intro fuel
  induction fuel with
  | zero => intro st _; rfl
  | succ fuel ih =>
    intro st hsuf
    unfold findIterFrom
    rw [runRx_digitFree hreq (fun c hc => hdf c (hsuf.subset hc))]
    cases hrest : st.rest with
    | nil => rfl
    | cons c r =>
      refine ih ⟨some c, r⟩ ?_
      rw [hrest] at hsuf
      exact (List.suffix_cons c r).trans hsuf

theorem findIter_digitFree {rx : Rx} (hreq : ReqDigit rx) {s : List Char}
    (hdf : ∀ c ∈ s, c.isDigit = false) : findIter rx s = [] :=
  findIterFrom_digitFree hreq hdf _ _ (List.suffix_refl s)

theorem reqDigit_rxDigits (lo : ℕ) (hi : Option ℕ) (h : 1 ≤ lo) :
    ReqDigit (rxDigits lo hi) :=
  ⟨h, fun _ hc => hc⟩

theorem reqDigit_rxIntComma : ReqDigit rxIntComma :=
  Or.inl (reqDigit_rxDigits 1 (some 3) (Nat.le_refl 1))

theorem reqDigit_rxMoneyCore : ReqDigit rxMoneyCore :=
  Or.inl reqDigit_rxIntComma

theorem reqDigit_rxMoneyTok : ReqDigit rxMoneyTok :=
  Or.inr (Or.inr (Or.inl reqDigit_rxMoneyCore))

theorem reqDigit_rxMoney : ReqDigit rxMoney :=
  reqDigit_rxMoneyTok

theorem reqDigit_rxSpacyDec : ReqDigit rxSpacyDec :=
  Or.inl reqDigit_rxIntComma

theorem reqDigit_rxSpacyPure : ReqDigit rxSpacyPure :=
  Or.inl reqDigit_rxIntComma

theorem reqDigit_rxSpacyAnySep : ReqDigit rxSpacyAnySep :=
  Or.inr (Or.inr (Or.inl reqDigit_rxIntComma))

theorem reqDigit_rxTailSplit : ReqDigit rxTailSplit :=
  Or.inl reqDigit_rxIntComma

theorem reqDigit_rxTailImplied : ReqDigit rxTailImplied :=
  Or.inl (reqDigit_rxDigits 3 (some 6) (by omega))

theorem reqDigit_rxNumericOnly : ReqDigit rxNumericOnly :=
  Or.inr (Or.inr (Or.inr (Or.inr (Or.inl
    ⟨Or.inl (reqDigit_rxDigits 1 (some 1) (Nat.le_refl 1)),
     reqDigit_rxDigits 3 (some 6) (by omega)⟩))))

theorem numericOnly_digitFree {l : List Char}
    (hdf : ∀ c ∈ l, c.isDigit = false) : is_numeric_only_line l = false := by
  unfold is_numeric_only_line reMatch
  rw [@runRx_digitFree _ ⟨none, l⟩ reqDigit_rxNumericOnly hdf]
  rfl

theorem suffix_append_suffix {u m : List Char} (b : List Char) (h : u <:+ m) :
    (u ++ b) <:+ (m ++ b) := by
  obtain ⟨t, ht⟩ := h
  exact ⟨t, by rw [← List.append_assoc, ht]⟩

theorem suffix_extend_left {u v : List Char} (t : List Char) (h : u <:+ v) :
    u <:+ t ++ v := by
  obtain ⟨w, hw⟩ := h
  exact ⟨t ++ w, by rw [List.append_assoc, hw]⟩

theorem suffix_eq_of_len {u v l : List Char} (hu : u <:+ l) (hv : v <:+ l)
    (hlen : u.length = v.length) : u = v := by
  obtain ⟨tu, htu⟩ := hu
  obtain ⟨tv, htv⟩ := hv
  have hl : tu ++ u = tv ++ v := htu.trans htv.symm
  have hlt : tu.length = tv.length := by
    have h2 := congrArg List.length hl
    simp only [List.length_append] at h2
    omega
  exact (List.append_inj hl hlt).2

theorem suffix_of_suffix_le {u v l : List Char} (hu : u <:+ l) (hv : v <:+ l)
    (h : u.length ≤ v.length) : u <:+ v := by
  obtain ⟨tu, htu⟩ := hu
  obtain ⟨tv, htv⟩ := hv
  have hl : tu ++ u = tv ++ v := htu.trans htv.symm
  have hlen : tv.length ≤ tu.length := by
    have h2 := congrArg List.length hl
    simp only [List.length_append] at h2
    omega
  have h3 := congrArg (List.drop tv.length) hl
  rw [List.drop_append_of_le_length hlen, List.drop_left] at h3
  exact ⟨tu.drop tv.length, h3⟩

theorem c4Line_len : c4Line.length = 15 := rfl

theorem sk_suffix (a b : List Char) (k : ℕ) :
    (c4Line.drop k ++ b) <:+ (a ++ c4Line ++ b) := by
  rw [List.append_assoc]
  exact suffix_extend_left a (suffix_append_suffix b (List.drop_suffix k c4Line))

theorem forced_suffix {a b u : List Char} (k : ℕ) (hk : k ≤ 15)
    (hu : u <:+ (a ++ c4Line ++ b)) (hlen : u.length = (15 - k) + b.length) :
    u = c4Line.drop k ++ b := by
  refine suffix_eq_of_len hu (sk_suffix a b k) ?_
  rw [hlen, List.length_append, List.length_drop, c4Line_len]

theorem head_forced_not_digit {u' : List Char} {d x : Char} {rest : List Char}
    (hd : x :: rest = d :: u') (hdig : d.isDigit = true) (hx : x.isDigit = false) :
    False := by
  injection hd with h1 _
  rw [← h1, hx] at hdig
  exact Bool.noConfusion hdig

theorem digit_suffix_cases {a b u : List Char}
    (ha : ∀ c ∈ a, c.isDigit = false) (hb : ∀ c ∈ b, c.isDigit = false)
    (hu : u <:+ (a ++ c4Line ++ b)) {d : Char} {u' : List Char}
    (hd : u = d :: u') (hdig : d.isDigit = true) :
    u = c4Line.drop 11 ++ b ∨ u = c4Line.drop 13 ++ b ∨ u = c4Line.drop 14 ++ b := by
  have hbsuf : b <:+ (a ++ c4Line ++ b) := ⟨a ++ c4Line, rfl⟩
  by_cases hle : u.length ≤ b.length
  · exfalso
    have hub := suffix_of_suffix_le hu hbsuf hle
    have hdb : d ∈ b := hub.subset (by rw [hd]; exact List.mem_cons_self _ _)
    rw [hb d hdb] at hdig
    exact Bool.noConfusion hdig
  · by_cases hge : 15 + b.length < u.length
    · exfalso
      have hcb : (c4Line ++ b) <:+ (a ++ c4Line ++ b) := by
        rw [List.append_assoc]
        exact suffix_extend_left a (List.suffix_refl _)
      have hsub := suffix_of_suffix_le hcb hu
        (by rw [List.length_append, c4Line_len]; omega)
      obtain ⟨w, hw⟩ := hsub
      obtain ⟨tu, htu⟩ := hu
      have hta : tu ++ w = a := by
        have h2 : (tu ++ w) ++ (c4Line ++ b) = a ++ (c4Line ++ b) := by
          rw [List.append_assoc, hw, htu, List.append_assoc]
        have hlen2 : (tu ++ w).length = a.length := by
          have h3 := congrArg List.length h2
          simp only [List.length_append] at h3 ⊢
          omega
        exact (List.append_inj h2 hlen2).1
      obtain ⟨w0, w', hw0⟩ : ∃ w0 w', w = w0 :: w' := by
        cases w with
        | nil =>
          exfalso
          rw [List.nil_append] at hw
          rw [← hw] at hge
          rw [List.length_append, c4Line_len] at hge
          omega
        | cons w0 w' => exact ⟨w0, w', rfl⟩
      rw [hw0] at hw
      rw [hd] at hw
      rw [List.cons_append] at hw
      have hd0 : w0 = d := by
        have h5 := congrArg List.head? hw
        simpa using h5
      have hw0a : w0 ∈ a := by
        rw [← hta]
        exact List.mem_append_right tu (by rw [hw0]; exact List.mem_cons_self _ _)
      rw [← hd0, ha w0 hw0a] at hdig
      exact Bool.noConfusion hdig
    · obtain ⟨j, hj1, hj15, hjdef⟩ : ∃ j, 1 ≤ j ∧ j ≤ 15 ∧ u.length = j + b.length :=
        ⟨u.length - b.length, by omega, by omega, by omega⟩
      have hfk : u = c4Line.drop (15 - j) ++ b :=
        forced_suffix (15 - j) (by omega) hu (by omega)
      interval_cases j
      · exact Or.inr (Or.inr hfk)
      · exact Or.inr (Or.inl hfk)
      · rw [hfk] at hd
        exact (head_forced_not_digit hd hdig (by decide)).elim
      · exact Or.inl hfk
      · rw [hfk] at hd
        exact (head_forced_not_digit hd hdig (by decide)).elim
      · rw [hfk] at hd
        exact (head_forced_not_digit hd hdig (by decide)).elim
      · rw [hfk] at hd
        exact (head_forced_not_digit hd hdig (by decide)).elim
      · rw [hfk] at hd
        exact (head_forced_not_digit hd hdig (by decide)).elim
      · rw [hfk] at hd
        exact (head_forced_not_digit hd hdig (by decide)).elim
      · rw [hfk] at hd
        exact (head_forced_not_digit hd hdig (by decide)).elim
      · rw [hfk] at hd
        exact (head_forced_not_digit hd hdig (by decide)).elim
      · rw [hfk] at hd
        exact (head_forced_not_digit hd hdig (by decide)).elim
      · rw [hfk] at hd
        exact (head_forced_not_digit hd hdig (by decide)).elim
      · rw [hfk] at hd
        exact (head_forced_not_digit hd hdig (by decide)).elim
      · rw [hfk] at hd
        exact (head_forced_not_digit hd hdig (by decide)).elim

theorem b_shape {b : List Char} (hlb : b = [] ∨ b.head? = some '\n') :
    b = [] ∨ ∃ b', b = '\n' :: b' := by
  rcases hlb with rfl | hh
  · exact Or.inl rfl
  · cases b with
    | nil => exact Or.inl rfl
    | cons x r =>
      refine Or.inr ⟨r, ?_⟩
      have hx : x = '\n' := by simpa using hh
      rw [hx]

theorem bcond_shape {b : List Char} (hlb : b = [] ∨ b.head? = some '\n') :
    b = [] ∨ ∃ x r', b = x :: r' ∧ Char.isDigit x = false := by
  rcases b_shape hlb with rfl | ⟨b', rfl⟩
  · exact Or.inl rfl
  · exact Or.inr ⟨'\n', b', rfl, by decide⟩

theorem rest_head_digit {l : List Char}
    (h : 0 < (l.takeWhile Char.isDigit).length) :
    ∃ c l', l = c :: l' ∧ c.isDigit = true := by
  cases l with
  | nil => simp at h
  | cons c l' =>
    refine ⟨c, l', rfl, ?_⟩
    by_cases hp : c.isDigit = true
    · exact hp
    · rw [List.takeWhile_cons, if_neg hp] at h
      simp at h

theorem cons_eq_head {x c : Char} {l rest : List Char}
    (h : x :: l = c :: rest) : x = c := by
  have h2 := congrArg List.head? h
  simpa using h2

theorem commaStar_first_comma {st : RState} {ra : Caps × RState}
    (hra : ra ∈ runRx (rxSeq [rxChar ',', rxDigits 3 (some 3)]) st) :
    ∃ c rest', st.rest = c :: rest' ∧ (lowerChar c == lowerChar ',') = true := by
  obtain ⟨rc, _, hc, _, _⟩ := runRx_seq_mem hra
  obtain ⟨c, rest', hcr, hpc, _⟩ := runRx_cls_mem hc
  exact ⟨c, rest', hcr, hpc⟩

theorem moneyCore_forces {a b : List Char}
    (ha : ∀ c ∈ a, c.isDigit = false) (hb : ∀ c ∈ b, c.isDigit = false)
    (hlb : b = [] ∨ b.head? = some '\n')
    {st : RState} (hsuf : st.rest <:+ (a ++ c4Line ++ b))
    {r : Caps × RState} (hr : r ∈ runRx rxMoneyCore st) :
    st.rest = c4Line.drop 11 ++ b := by
  have hbshape := bcond_shape hlb
  obtain ⟨r1, rx2, h1, hx2, _⟩ := runRx_seq_mem hr
  obtain ⟨rd, rx3, hdg, hx3, h1e⟩ := runRx_seq_mem h1
  obtain ⟨rs, rx4, hstar, hx4, h3e⟩ := runRx_seq_mem hx3
  have h4e := runRx_eps_mem hx4
  obtain ⟨k, hk1, hk2, _, hkrest⟩ := runRx_repc_mem hdg
  obtain ⟨d0, l', hst0, hd0⟩ := @rest_head_digit st.rest (by omega)
  have hcase := digit_suffix_cases ha hb hsuf hst0 hd0
  have hdot : ∃ c crest, r1.2.rest = c :: crest ∧
      (lowerChar c == lowerChar '.') = true := by
    obtain ⟨rdot, _, hcd, _, _⟩ := runRx_seq_mem hx2
    obtain ⟨c, crest, hcr, hpc, _⟩ := runRx_cls_mem hcd
    exact ⟨c, crest, hcr, hpc⟩
  rcases hcase with hpos | hpos | hpos
  · exact hpos
  · exfalso
    have htw : st.rest.takeWhile Char.isDigit = ['0', '0'] := by
      rw [hpos]
      exact takeWhile_all_append _ (by decide) _ hbshape
    rw [htw] at hk2
    replace hk2 : k ≤ 2 := by simpa using hk2
    rcases runRx_star_mem hstar with hstuck | ⟨ra, hra, _, _⟩
    · have h1r : r1.2.rest = rd.2.rest := by
        rw [h1e, h3e, h4e, hstuck]
      obtain ⟨c, crest, hcr2, hpc⟩ := hdot
      rw [h1r, hkrest, hpos] at hcr2
      interval_cases k
      · have h5 : ('0' : Char) :: b = c :: crest := hcr2
        rw [← cons_eq_head h5] at hpc
        exact absurd hpc (by decide)
      · rcases b_shape hlb with rfl | ⟨b', rfl⟩
        · exact absurd (show ([] : List Char) = c :: crest from hcr2) (by simp)
        · have h5 : ('\n' : Char) :: b' = c :: crest := hcr2
          rw [← cons_eq_head h5] at hpc
          exact absurd hpc (by decide)
    · obtain ⟨c, crest, hcr2, hpc⟩ := commaStar_first_comma hra
      rw [hkrest, hpos] at hcr2
      interval_cases k
      · have h5 : ('0' : Char) :: b = c :: crest := hcr2
        rw [← cons_eq_head h5] at hpc
        exact absurd hpc (by decide)
      · rcases b_shape hlb with rfl | ⟨b', rfl⟩
        · exact absurd (show ([] : List Char) = c :: crest from hcr2) (by simp)
        · have h5 : ('\n' : Char) :: b' = c :: crest := hcr2
          rw [← cons_eq_head h5] at hpc
          exact absurd hpc (by decide)
  · exfalso
    have htw : st.rest.takeWhile Char.isDigit = ['0'] := by
      rw [hpos]
      exact takeWhile_all_append _ (by decide) _ hbshape
    rw [htw] at hk2
    replace hk2 : k ≤ 1 := by simpa using hk2
    rcases runRx_star_mem hstar with hstuck | ⟨ra, hra, _, _⟩
    · have h1r : r1.2.rest = rd.2.rest := by
        rw [h1e, h3e, h4e, hstuck]
      obtain ⟨c, crest, hcr2, hpc⟩ := hdot
      rw [h1r, hkrest, hpos] at hcr2
      interval_cases k
      rcases b_shape hlb with rfl | ⟨b', rfl⟩
      · exact absurd (show ([] : List Char) = c :: crest from hcr2) (by simp)
      · have h5 : ('\n' : Char) :: b' = c :: crest := hcr2
        rw [← cons_eq_head h5] at hpc
        exact absurd hpc (by decide)
    · obtain ⟨c, crest, hcr2, hpc⟩ := commaStar_first_comma hra
      rw [hkrest, hpos] at hcr2
      interval_cases k
      rcases b_shape hlb with rfl | ⟨b', rfl⟩
      · exact absurd (show ([] : List Char) = c :: crest from hcr2) (by simp)
      · have h5 : ('\n' : Char) :: b' = c :: crest := hcr2
        rw [← cons_eq_head h5] at hpc
        exact absurd hpc (by decide)

theorem moneyTok_forces {a b : List Char}
    (ha : ∀ c ∈ a, c.isDigit = false) (hb : ∀ c ∈ b, c.isDigit = false)
    (hlb : b = [] ∨ b.head? = some '\n')
    {st : RState} (hsuf : st.rest <:+ (a ++ c4Line ++ b))
    {r : Caps × RState} (hr : r ∈ runRx rxMoneyTok st) :
    st.rest = c4Line.drop 11 ++ b ∨ st.rest = c4Line.drop 10 ++ b := by
  obtain ⟨rp, rx1, hp, hx1, _⟩ := runRx_seq_mem hr
  obtain ⟨rsp, rx2, hsp, hx2, _⟩ := runRx_seq_mem hx1
  obtain ⟨rc, rx3, hc, _, _⟩ := runRx_seq_mem hx2
  obtain ⟨tp, hpdec, hpall, _, hple⟩ := repc_consumed hp
  obtain ⟨ts, hsdec, hsall, _, hsle⟩ := repc_consumed hsp
  have hsufsp : rsp.2.rest <:+ (a ++ c4Line ++ b) := by
    have s1 : rsp.2.rest <:+ rp.2.rest := ⟨ts, hsdec.symm⟩
    have s2 : rp.2.rest <:+ st.rest := ⟨tp, hpdec.symm⟩
    exact (s1.trans s2).trans hsuf
  have hcore := moneyCore_forces ha hb hlb hsufsp hc
  have hple1 : tp.length ≤ 1 := hple 1 rfl
  have hsle1 : ts.length ≤ 1 := hsle 1 rfl
  have hlen4 : (c4Line.drop 11).length = 4 := rfl
  cases tp with
  | nil =>
    simp only [List.nil_append] at hpdec
    cases ts with
    | nil =>
      left
      simp only [List.nil_append] at hsdec
      rw [hpdec, hsdec, hcore]
    | cons x ts' =>
      exfalso
      have hts0 : ts' = [] := by
        rw [List.length_cons] at hsle1
        exact List.eq_nil_of_length_eq_zero (by omega)
      subst hts0
      have hstx : st.rest = x :: (c4Line.drop 11 ++ b) := by
        rw [hpdec, hsdec, hcore]
        rfl
      have hforce := forced_suffix 10 (by omega) hsuf
        (by rw [hstx]; simp only [List.length_cons, List.length_append, hlen4]; omega)
      have h6 : c4Line.drop 10 ++ b = '$' :: (c4Line.drop 11 ++ b) := rfl
      rw [h6] at hforce
      have hx2e : x = '$' := cons_eq_head (hstx.symm.trans hforce)
      have h8 := hsall x (List.mem_cons_self _ _)
      rw [hx2e] at h8
      exact absurd h8 (by decide)
  | cons y tp' =>
    have htp0 : tp' = [] := by
      rw [List.length_cons] at hple1
      exact List.eq_nil_of_length_eq_zero (by omega)
    subst htp0
    cases ts with
    | nil =>
      right
      simp only [List.nil_append] at hsdec
      have hstx : st.rest = y :: (c4Line.drop 11 ++ b) := by
        rw [hpdec, hsdec, hcore]
        rfl
      exact forced_suffix 10 (by omega) hsuf
        (by rw [hstx]; simp only [List.length_cons, List.length_append, hlen4]; omega)
    | cons x ts' =>
      exfalso
      have hts0 : ts' = [] := by
        rw [List.length_cons] at hsle1
        exact List.eq_nil_of_length_eq_zero (by omega)
      subst hts0
      have hstx : st.rest = y :: x :: (c4Line.drop 11 ++ b) := by
        rw [hpdec, hsdec, hcore]
        rfl
      have hforce := forced_suffix 9 (by omega) hsuf
        (by rw [hstx]; simp only [List.length_cons, List.length_append, hlen4]; omega)
      have h6 : c4Line.drop 9 ++ b = ' ' :: '$' :: (c4Line.drop 11 ++ b) := rfl
      rw [h6] at hforce
      have hy : y = ' ' := cons_eq_head (hstx.symm.trans hforce)
      have h8 := hpall y (List.mem_cons_self _ _)
      rw [hy] at h8
      exact absurd h8 (by decide)

theorem lit_last3 {cs : List Char} {st : RState} {rl : Caps × RState} (k : ℕ)
    (h : rl ∈ runRx (rxSeq (cs.map rxChar)) st) :
    ∃ l3, (l3 ++ rl.2.rest) <:+ st.rest ∧
      l3.map lowerChar = (cs.map lowerChar).drop k := by
  obtain ⟨t, ht, hmap⟩ := runRx_lit_mem cs st rl h
  refine ⟨t.drop k, ?_, ?_⟩
  · refine ⟨t.take k, ?_⟩
    rw [← List.append_assoc, List.take_append_drop, ht]
  · rw [List.map_drop, hmap]

theorem totalLabel_last3 {st : RState} {r : Caps × RState}
    (hr : r ∈ runRx rxTotalLabel st) :
    ∃ l3, (l3 ++ r.2.rest) <:+ st.rest ∧
      (l3.map lowerChar = "tal".data ∨ l3.map lowerChar = "due".data ∨
       l3.map lowerChar = "nce".data) := by
  rcases runRx_alt_mem hr with hA | hr2
  · obtain ⟨rg, rxA1, hg, hA1, hAe⟩ := runRx_seq_mem hA
    obtain ⟨rsp, rxA2, hsp, hA2, hA1e⟩ := runRx_seq_mem hA1
    obtain ⟨rt, rxA3, ht, hA3, hA2e⟩ := runRx_seq_mem hA2
    have hA3e := runRx_eps_mem hA3
    have hre : r.2 = rt.2 := by rw [hAe, hA1e, hA2e, hA3e]
    obtain ⟨l3, hsu, hm⟩ := lit_last3 2 ht
    refine ⟨l3, ?_, Or.inl (by rw [hm]; decide)⟩
    rw [hre]
    exact (hsu.trans (runRx_suffix _ _ _ hsp)).trans (runRx_suffix _ _ _ hg)
  rcases runRx_alt_mem hr2 with hB | hr3
  · obtain ⟨rg, rxA1, hg, hA1, hAe⟩ := runRx_seq_mem hB
    obtain ⟨rsp, rxA2, hsp, hA2, hA1e⟩ := runRx_seq_mem hA1
    obtain ⟨rt, rxA3, ht, hA3, hA2e⟩ := runRx_seq_mem hA2
    have hA3e := runRx_eps_mem hA3
    have hre : r.2 = rt.2 := by rw [hAe, hA1e, hA2e, hA3e]
    obtain ⟨l3, hsu, hm⟩ := lit_last3 0 ht
    refine ⟨l3, ?_, Or.inr (Or.inl (by rw [hm]; decide))⟩
    rw [hre]
    exact (hsu.trans (runRx_suffix _ _ _ hsp)).trans (runRx_suffix _ _ _ hg)
  rcases runRx_alt_mem hr3 with hC | hD
  · obtain ⟨rb, rxC1, hbal, hC1, hCe⟩ := runRx_seq_mem hC
    obtain ⟨ro, rxC2, hopt, hC2, hC1e⟩ := runRx_seq_mem hC1
    have hC2e := runRx_eps_mem hC2
    have hre : r.2 = ro.2 := by rw [hCe, hC1e, hC2e]
    rcases runRx_alt_mem hopt with hdue | heps
    · obtain ⟨rsp, rxD1, hsp, hD1, hDe⟩ := runRx_seq_mem hdue
      obtain ⟨rt, rxD2, ht, hD2, hD1e⟩ := runRx_seq_mem hD1
      have hD2e := runRx_eps_mem hD2
      have hre2 : ro.2 = rt.2 := by rw [hDe, hD1e, hD2e]
      obtain ⟨l3, hsu, hm⟩ := lit_last3 0 ht
      refine ⟨l3, ?_, Or.inr (Or.inl (by rw [hm]; decide))⟩
      rw [hre, hre2]
      exact (hsu.trans (runRx_suffix _ _ _ hsp)).trans (runRx_suffix _ _ _ hbal)
    · have ho := runRx_eps_mem heps
      have hre2 : ro.2 = rb.2 := by rw [ho]
      obtain ⟨l3, hsu, hm⟩ := lit_last3 4 hbal
      refine ⟨l3, ?_, Or.inr (Or.inr (by rw [hm]; decide))⟩
      rw [hre, hre2]
      exact hsu
  · obtain ⟨rt, rxD1, ht, hD1, hDe⟩ := runRx_seq_mem hD
    obtain ⟨rn1, rxD2, hn1, hD2, hD1e⟩ := runRx_seq_mem hD1
    obtain ⟨rn2, rxD3, hn2, hD3, hD2e⟩ := runRx_seq_mem hD2
    obtain ⟨rn3, rxD4, hn3, hD4, hD3e⟩ := runRx_seq_mem hD3
    have hD4e := runRx_eps_mem hD4
    have hn1e := runRx_nla_mem hn1
    have hn2e := runRx_nla_mem hn2
    have hn3e := runRx_nla_mem hn3
    have hre : r.2 = rt.2 := by
      rw [hDe, hD1e, hD2e, hD3e, hD4e, hn3e, hn2e, hn1e]
    obtain ⟨l3, hsu, hm⟩ := lit_last3 2 ht
    refine ⟨l3, ?_, Or.inl (by rw [hm]; decide)⟩
    rw [hre]
    exact hsu

theorem noise_block {a b : List Char}
    (hb : ∀ c ∈ b, c.isDigit = false)
    {l3 noi tokRest : List Char}
    (hl3 : l3.map lowerChar = "tal".data ∨ l3.map lowerChar = "due".data ∨
           l3.map lowerChar = "nce".data ∨ l3.map lowerChar = "pay".data)
    (hno : ∀ c ∈ noi, isNoise c = true)
    (hsuf : (l3 ++ (noi ++ tokRest)) <:+ (a ++ c4Line ++ b))
    (htok : tokRest = c4Line.drop 11 ++ b ∨ tokRest = c4Line.drop 10 ++ b) :
    False := by
  have hl3len : l3.length = 3 := by
    have key : ∀ (w : List Char), l3.map lowerChar = w → w.length = 3 →
        l3.length = 3 := by
      intro w hw h3
      have h2 := congrArg List.length hw
      rw [List.length_map] at h2
      omega
    rcases hl3 with h | h | h | h
    · exact key _ h (by decide)
    · exact key _ h (by decide)
    · exact key _ h (by decide)
    · exact key _ h (by decide)
  have hlen5 : (c4Line.drop 10).length = 5 := rfl
  have hlen4 : (c4Line.drop 11).length = 4 := rfl
  rcases htok with rfl | rfl
  · rcases List.eq_nil_or_concat noi with rfl | ⟨noi', x, hnoi⟩
    · have hs2 : (l3 ++ (c4Line.drop 11 ++ b)) <:+ (a ++ c4Line ++ b) := by
        simpa using hsuf
      have hforce := forced_suffix 8 (by omega) hs2
        (by simp only [List.length_append, hlen4, hl3len]; omega)
      have h6 : c4Line.drop 8 ++ b = ['d', ' ', '$'] ++ (c4Line.drop 11 ++ b) := rfl
      rw [h6] at hforce
      have hl3e : l3 = ['d', ' ', '$'] :=
        (List.append_inj hforce (by rw [hl3len]; rfl)).1
      rw [hl3e] at hl3
      rcases hl3 with h | h | h | h <;> exact absurd h (by decide)
    · rw [List.concat_eq_append] at hnoi
      subst hnoi
      have hs2 : ([x] ++ (c4Line.drop 11 ++ b)) <:+ (a ++ c4Line ++ b) := by
        refine List.IsSuffix.trans ?_ hsuf
        refine ⟨l3 ++ noi', ?_⟩
        simp [List.append_assoc]
      have hforce := forced_suffix 10 (by omega) hs2
        (by simp only [List.length_append, hlen4, List.length_cons,
              List.length_nil]; omega)
      have h6 : c4Line.drop 10 ++ b = '$' :: (c4Line.drop 11 ++ b) := rfl
      rw [h6] at hforce
      have hx : x = '$' := cons_eq_head hforce
      have h8 := hno x (List.mem_append_right noi' (List.mem_cons_self _ _))
      rw [hx] at h8
      exact absurd h8 (by decide)
  · rcases List.eq_nil_or_concat noi with rfl | ⟨noi', x, hnoi⟩
    · have hs2 : (l3 ++ (c4Line.drop 10 ++ b)) <:+ (a ++ c4Line ++ b) := by
        simpa using hsuf
      have hforce := forced_suffix 7 (by omega) hs2
        (by simp only [List.length_append, hlen5, hl3len]; omega)
      have h6 : c4Line.drop 7 ++ b = ['e', 'd', ' '] ++ (c4Line.drop 10 ++ b) := rfl
      rw [h6] at hforce
      have hl3e : l3 = ['e', 'd', ' '] :=
        (List.append_inj hforce (by rw [hl3len]; rfl)).1
      rw [hl3e] at hl3
      rcases hl3 with h | h | h | h <;> exact absurd h (by decide)
    · rw [List.concat_eq_append] at hnoi
      subst hnoi
      by_cases hbig : 6 ≤ (noi' ++ [x]).length
      · obtain ⟨z, hz, hzlen⟩ : ∃ z, z <:+ (noi' ++ [x]) ∧ z.length = 6 := by
          refine ⟨(noi' ++ [x]).drop ((noi' ++ [x]).length - 6),
            List.drop_suffix _ _, ?_⟩
          rw [List.length_drop]
          omega
        have hs2 : (z ++ (c4Line.drop 10 ++ b)) <:+ (a ++ c4Line ++ b) := by
          refine List.IsSuffix.trans ?_ hsuf
          obtain ⟨w, hw⟩ := hz
          refine ⟨l3 ++ w, ?_⟩
          rw [← hw]
          simp [List.append_assoc]
        have hforce := forced_suffix 4 (by omega) hs2
          (by simp only [List.length_append, hlen5, hzlen]; omega)
        have h6 : c4Line.drop 4 ++ b = "saved ".data ++ (c4Line.drop 10 ++ b) := rfl
        rw [h6] at hforce
        have hze : z = "saved ".data :=
          (List.append_inj hforce (by rw [hzlen]; rfl)).1
        have hsz : 's' ∈ z := by rw [hze]; decide
        have h8 := hno 's' (hz.subset hsz)
        exact absurd h8 (by decide)
      · obtain ⟨j, hj1, hj5, hjlen⟩ :
            ∃ j, 1 ≤ j ∧ j ≤ 5 ∧ (noi' ++ [x]).length = j := by
          refine ⟨(noi' ++ [x]).length, ?_, by omega, rfl⟩
          rw [List.length_append]
          simp
        have hs2 : (l3 ++ ((noi' ++ [x]) ++ (c4Line.drop 10 ++ b))) <:+
            (a ++ c4Line ++ b) := by
          simpa [List.append_assoc] using hsuf
        have hforce := forced_suffix (7 - j) (by omega) hs2
          (by simp only [List.length_append, hlen5, hl3len, hjlen]; omega)
        interval_cases j
        · have h6 : c4Line.drop 6 ++ b = ['v', 'e', 'd'] ++ (c4Line.drop 9 ++ b) := rfl
          rw [h6] at hforce
          have hl3e : l3 = ['v', 'e', 'd'] :=
            (List.append_inj hforce (by rw [hl3len]; rfl)).1
          rw [hl3e] at hl3
          rcases hl3 with h | h | h | h <;> exact absurd h (by decide)
        · have h6 : c4Line.drop 5 ++ b = ['a', 'v', 'e'] ++ (c4Line.drop 8 ++ b) := rfl
          rw [h6] at hforce
          have hl3e : l3 = ['a', 'v', 'e'] :=
            (List.append_inj hforce (by rw [hl3len]; rfl)).1
          rw [hl3e] at hl3
          rcases hl3 with h | h | h | h <;> exact absurd h (by decide)
        · have h6 : c4Line.drop 4 ++ b = ['s', 'a', 'v'] ++ (c4Line.drop 7 ++ b) := rfl
          rw [h6] at hforce
          have hl3e : l3 = ['s', 'a', 'v'] :=
            (List.append_inj hforce (by rw [hl3len]; rfl)).1
          rw [hl3e] at hl3
          rcases hl3 with h | h | h | h <;> exact absurd h (by decide)
        · have h6 : c4Line.drop 3 ++ b = [' ', 's', 'a'] ++ (c4Line.drop 6 ++ b) := rfl
          rw [h6] at hforce
          have hl3e : l3 = [' ', 's', 'a'] :=
            (List.append_inj hforce (by rw [hl3len]; rfl)).1
          rw [hl3e] at hl3
          rcases hl3 with h | h | h | h <;> exact absurd h (by decide)
        · have h6 : c4Line.drop 2 ++ b = ['u', ' ', 's'] ++ (c4Line.drop 5 ++ b) := rfl
          rw [h6] at hforce
          have hl3e : l3 = ['u', ' ', 's'] :=
            (List.append_inj hforce (by rw [hl3len]; rfl)).1
          rw [hl3e] at hl3
          rcases hl3 with h | h | h | h <;> exact absurd h (by decide)

theorem intComma_end_cases {st : RState} {r : Caps × RState}
    (hr : r ∈ runRx rxIntComma st) :
    ∃ k, 1 ≤ k ∧ k ≤ (st.rest.takeWhile Char.isDigit).length ∧
      (r.2.rest = st.rest.drop k ∨
       ∃ c rest', st.rest.drop k = c :: rest' ∧
         (lowerChar c == lowerChar ',') = true) := by
  obtain ⟨rd, rx3, hdg, hx3, h1e⟩ := runRx_seq_mem hr
  obtain ⟨rs, rx4, hstar, hx4, h3e⟩ := runRx_seq_mem hx3
  have h4e := runRx_eps_mem hx4
  obtain ⟨k, hk1, hk2, _, hkrest⟩ := runRx_repc_mem hdg
  refine ⟨k, hk1, hk2, ?_⟩
  rcases runRx_star_mem hstar with hstuck | ⟨ra, hra, _, _⟩
  · left
    rw [h1e, h3e, h4e, hstuck, hkrest]
  · right
    obtain ⟨c, rest', hcr, hpc⟩ := commaStar_first_comma hra
    rw [hkrest] at hcr
    exact ⟨c, rest', hcr, hpc⟩

theorem netPay_refute {a b : List Char}
    (ha : ∀ c ∈ a, c.isDigit = false) (hb : ∀ c ∈ b, c.isDigit = false)
    (hlb : b = [] ∨ b.head? = some '\n')
    {left : Option Char} {u : List Char} (hu : u <:+ (a ++ c4Line ++ b))
    {r : Caps × RState} (hr : r ∈ runRx rxNetPay ⟨left, u⟩) : False := by
  obtain ⟨r1, rA, h1, hA, _⟩ := runRx_seq_mem hr
  obtain ⟨r2, rB, h2, hB, _⟩ := runRx_seq_mem hA
  obtain ⟨r3, rC, h3, hC, _⟩ := runRx_seq_mem hB
  obtain ⟨r4, rD, h4, hD, _⟩ := runRx_seq_mem hC
  obtain ⟨r5, rE, h5, hE, _⟩ := runRx_seq_mem hD
  obtain ⟨r6, rF, h6, hF, _⟩ := runRx_seq_mem hE
  have e4 := runRx_wb_mem h4
  subst e4
  have hsu5 : r5.2.rest <:+ (a ++ c4Line ++ b) :=
    ((runRx_suffix _ _ _ h5).trans (runRx_suffix _ _ r3 h3)).trans
      ((runRx_suffix _ _ _ h2).trans ((runRx_suffix _ _ _ h1).trans hu))
  obtain ⟨rt, ht, _⟩ := runRx_grp_mem h6
  have htokf := moneyTok_forces ha hb hlb hsu5 ht
  obtain ⟨tno, hnodec, hnoall, _, _⟩ := repc_consumed h5
  obtain ⟨t3, ht3dec, ht3map⟩ := runRx_lit_mem "pay".data _ _ h3
  have hfinal : (t3 ++ (tno ++ r5.2.rest)) <:+ (a ++ c4Line ++ b) := by
    have h7 : r2.2.rest <:+ (a ++ c4Line ++ b) :=
      (runRx_suffix _ _ _ h2).trans ((runRx_suffix _ _ _ h1).trans hu)
    have h8 : r3.2.rest = tno ++ r5.2.rest := hnodec
    rw [ht3dec, h8] at h7
    exact h7
  refine noise_block hb (Or.inr (Or.inr (Or.inr ?_))) hnoall hfinal htokf
  rw [ht3map]
  decide

theorem netPayLoose_refute {a b : List Char}
    (ha : ∀ c ∈ a, c.isDigit = false) (hb : ∀ c ∈ b, c.isDigit = false)
    (hlb : b = [] ∨ b.head? = some '\n')
    {left : Option Char} {u : List Char} (hu : u <:+ (a ++ c4Line ++ b))
    {r : Caps × RState} (hr : r ∈ runRx rxNetPayLoose ⟨left, u⟩) : False := by
  obtain ⟨r1, rA, h1, hA, _⟩ := runRx_seq_mem hr
  obtain ⟨r2, rB, h2, hB, _⟩ := runRx_seq_mem hA
  obtain ⟨r3, rC, h3, hC, _⟩ := runRx_seq_mem hB
  obtain ⟨r4, rD, h4, hD, _⟩ := runRx_seq_mem hC
  obtain ⟨r5, rE, h5, hE, _⟩ := runRx_seq_mem hD
  obtain ⟨r6, rF, h6, hF, _⟩ := runRx_seq_mem hE
  have e4 := runRx_wb_mem h4
  subst e4
  have hsu5 : r5.2.rest <:+ (a ++ c4Line ++ b) :=
    ((runRx_suffix _ _ _ h5).trans (runRx_suffix _ _ r3 h3)).trans
      ((runRx_suffix _ _ _ h2).trans ((runRx_suffix _ _ _ h1).trans hu))
  obtain ⟨rg, hG, _⟩ := runRx_grp_mem h6
  obtain ⟨q1, qx1, hg1, hqx1, _⟩ := runRx_seq_mem hG
  obtain ⟨q2, qx2, hg2, hqx2, _⟩ := runRx_seq_mem hqx1
  obtain ⟨q3, qx3, hg3, hqx3, _⟩ := runRx_seq_mem hqx2
  obtain ⟨q4, qx4, hg4, hqx4, _⟩ := runRx_seq_mem hqx3
  obtain ⟨q5, qx5, hg5, hqx5, _⟩ := runRx_seq_mem hqx4
  obtain ⟨q6, qx6, hg6, hqx6, _⟩ := runRx_seq_mem hqx5
  obtain ⟨q7, qx7, hg7, hqx7, _⟩ := runRx_seq_mem hqx6
  obtain ⟨q8, qx8, hg8, hqx8, _⟩ := runRx_seq_mem hqx7
  have hsuq2 : q2.2.rest <:+ (a ++ c4Line ++ b) :=
    (runRx_suffix _ _ _ hg2).trans ((runRx_suffix _ _ _ hg1).trans hsu5)
  -- the single digit of the group
  obtain ⟨td, htddec, htdall, htdlen, htdle⟩ := repc_consumed hg3
  obtain ⟨d0, td0, htd0⟩ : ∃ d0 td0, td = d0 :: td0 := by
    cases td with
    | nil => exact absurd htdlen (by decide)
    | cons d0 td0 => exact ⟨d0, td0, rfl⟩
  have hcase := digit_suffix_cases ha hb hsuq2
    (show q2.2.rest = d0 :: (td0 ++ q3.2.rest) by rw [htddec, htd0, List.cons_append])
    (htdall d0 (by rw [htd0]; exact List.mem_cons_self _ _))
  have hbshape := bcond_shape hlb
  -- digit tail: the final two digits must live in a suffix of b
  obtain ⟨t8, ht8dec, ht8all, ht8len, _⟩ := repc_consumed hg8
  obtain ⟨d8, t8', ht80⟩ : ∃ d8 t8', t8 = d8 :: t8' := by
    cases t8 with
    | nil => exact absurd ht8len (by decide)
    | cons d8 t8' => exact ⟨d8, t8', rfl⟩
  rcases hcase with hpos | hpos | hpos
  · -- "5.00" position: blocked on the left
    -- the spaces before the digit must be empty
    obtain ⟨tsp, hspdec, hspall, _, _⟩ := repc_consumed hg2
    rcases List.eq_nil_or_concat tsp with rfl | ⟨tsp', x, hsp0⟩
    · simp only [List.nil_append] at hspdec
      -- pre is/was 0 or 1 chars
      obtain ⟨tpre, hpredec, hpreall, _, hprele⟩ := repc_consumed hg1
      obtain ⟨tno, hnodec, hnoall, _, _⟩ := repc_consumed h5
      obtain ⟨t3, ht3dec, ht3map⟩ := runRx_lit_mem "pay".data _ _ h3
      have hfinal : (t3 ++ (tno ++ r5.2.rest)) <:+ (a ++ c4Line ++ b) := by
        have h7 : r2.2.rest <:+ (a ++ c4Line ++ b) :=
          (runRx_suffix _ _ _ h2).trans ((runRx_suffix _ _ _ h1).trans hu)
        have h8 : r3.2.rest = tno ++ r5.2.rest := hnodec
        rw [ht3dec, h8] at h7
        exact h7
      have hple1 : tpre.length ≤ 1 := hprele 1 rfl
      have htok : r5.2.rest = c4Line.drop 11 ++ b ∨
          r5.2.rest = c4Line.drop 10 ++ b := by
        cases tpre with
        | nil =>
          left
          simp only [List.nil_append] at hpredec
          rw [hpredec, hspdec, hpos]
        | cons y tpre' =>
          right
          have htp0 : tpre' = [] := by
            rw [List.length_cons] at hple1
            exact List.eq_nil_of_length_eq_zero (by omega)
          subst htp0
          have hstx : r5.2.rest = y :: (c4Line.drop 11 ++ b) := by
            rw [hpredec, hspdec, hpos]
            rfl
          exact forced_suffix 10 (by omega) hsu5
            (by rw [hstx]
                simp only [List.length_cons, List.length_append,
                  show (c4Line.drop 11).length = 4 from rfl]
                omega)
      refine noise_block hb (Or.inr (Or.inr (Or.inr ?_))) hnoall hfinal htok
      rw [ht3map]
      decide
    · -- a nonempty space run would sit right before the digit: its last
      -- char would be the dollar sign
      rw [List.concat_eq_append] at hsp0
      subst hsp0
      have hq1t : q1.2.rest <:+ (a ++ c4Line ++ b) :=
        (runRx_suffix _ _ _ hg1).trans hsu5
      have hs2 : ([x] ++ q2.2.rest) <:+ (a ++ c4Line ++ b) := by
        refine List.IsSuffix.trans ⟨tsp', ?_⟩ hq1t
        rw [← List.append_assoc, ← hspdec]
      rw [hpos] at hs2
      have hforce := forced_suffix 10 (by omega) hs2
        (by simp only [List.length_append, List.length_cons, List.length_nil,
              show (c4Line.drop 11).length = 4 from rfl]
            omega)
      have h6 : c4Line.drop 10 ++ b = '$' :: (c4Line.drop 11 ++ b) := rfl
      rw [h6] at hforce
      have hx : x = '$' := cons_eq_head hforce
      have h8 := hspall x (List.mem_append_right tsp' (List.mem_cons_self _ _))
      rw [hx] at h8
      exact absurd h8 (by decide)
  · -- "00" position: the final two digits cannot be found
    have htd1 : td0 = [] := by
      have h9 := htdle 1 rfl
      rw [htd0, List.length_cons] at h9
      exact List.eq_nil_of_length_eq_zero (by omega)
    rw [htd1] at htd0
    rw [htd0] at htddec
    have h5 : d0 :: q3.2.rest = '0' :: ('0' :: b) := htddec.symm.trans hpos
    have hq3 : q3.2.rest = '0' :: b := by
      have h6 := congrArg List.tail h5
      simpa using h6
    obtain ⟨k4, _, hk42, _, hk4rest⟩ := runRx_repc_mem hg4
    have htw4 : (q3.2.rest.takeWhile (fun c => c.isDigit || c == ',')) = ['0'] := by
      rw [hq3]
      refine takeWhile_all_append ['0'] (by decide) b ?_
      rcases b_shape hlb with rfl | ⟨b', rfl⟩
      · exact Or.inl rfl
      · exact Or.inr ⟨'\n', b', rfl, by decide⟩
    rw [htw4] at hk42
    replace hk42 : k4 ≤ 1 := by simpa using hk42
    have hkillb4 : ¬ (q4.2.rest <:+ b) := by
      intro hw
      have hsub8 : q7.2.rest <:+ b :=
        (((runRx_suffix _ _ _ hg7).trans (runRx_suffix _ _ _ hg6)).trans
          (runRx_suffix _ _ _ hg5)).trans hw
      have hmem : d8 ∈ b := by
        refine hsub8.subset ?_
        rw [ht8dec, ht80]
        exact List.mem_cons_self _ _
      have h9 := ht8all d8 (by rw [ht80]; exact List.mem_cons_self _ _)
      rw [hb d8 hmem] at h9
      exact Bool.noConfusion h9
    interval_cases k4
    · -- no digit-comma chars taken: the separator class hits the second zero
      have hq4 : q4.2.rest = '0' :: b := by
        rw [hk4rest, hq3]
        rfl
      obtain ⟨k5, _, hk52, _, hk5rest⟩ := runRx_repc_mem hg5
      have htw5 : q4.2.rest.takeWhile isPySpace = [] := by
        rw [hq4]
        rfl
      rw [htw5] at hk52
      replace hk52 : k5 = 0 := by simpa using hk52
      have hq5 : q5.2.rest = '0' :: b := by
        rw [hk5rest, hk52, hq4]
        rfl
      obtain ⟨c, crest, hc6, hp6, _⟩ := runRx_cls_mem hg6
      rw [hq5] at hc6
      have hc0 : c = '0' :=
        (cons_eq_head (show ('0' : Char) :: b = c :: crest from hc6)).symm
      rw [hc0] at hp6
      exact absurd hp6 (by decide)
    · -- the second zero is consumed: the two cent digits must come from b
      have hq4 : q4.2.rest = b := by
        rw [hk4rest, hq3]
        rfl
      refine hkillb4 ?_
      rw [hq4]
  · -- "0" position: the two cent digits must come from b
    have htd1 : td0 = [] := by
      have h9 := htdle 1 rfl
      rw [htd0, List.length_cons] at h9
      exact List.eq_nil_of_length_eq_zero (by omega)
    rw [htd1] at htd0
    rw [htd0] at htddec
    have h5 : d0 :: q3.2.rest = '0' :: b := htddec.symm.trans hpos
    have hq3 : q3.2.rest = b := by
      have h6 := congrArg List.tail h5
      simpa using h6
    obtain ⟨k4, _, hk42, _, hk4rest⟩ := runRx_repc_mem hg4
    have htw4 : (q3.2.rest.takeWhile (fun c => c.isDigit || c == ',')) = [] := by
      rcases b_shape hlb with hbn | ⟨b', hbc⟩
      · rw [hq3, hbn]
        rfl
      · rw [hq3, hbc]
        rfl
    rw [htw4] at hk42
    replace hk42 : k4 = 0 := by simpa using hk42
    have hkillb4 : ¬ (q4.2.rest <:+ b) := by
      intro hw
      have hsub8 : q7.2.rest <:+ b :=
        (((runRx_suffix _ _ _ hg7).trans (runRx_suffix _ _ _ hg6)).trans
          (runRx_suffix _ _ _ hg5)).trans hw
      have hmem : d8 ∈ b := by
        refine hsub8.subset ?_
        rw [ht8dec, ht80]
        exact List.mem_cons_self _ _
      have h9 := ht8all d8 (by rw [ht80]; exact List.mem_cons_self _ _)
      rw [hb d8 hmem] at h9
      exact Bool.noConfusion h9
    refine hkillb4 ?_
    rw [hk4rest, hk42, List.drop_zero, hq3]

/-! ## From per-suffix refutations to whole-text search emptiness -/

theorem reSearchFrom_none_of (rx : Rx) (s : List Char)
    (h : ∀ (lf : Option Char) (v : List Char), v <:+ s → runRx rx ⟨lf, v⟩ = []) :
    ∀ (rest : List Char), rest <:+ s → ∀ lf, reSearchFrom rx lf rest = none := by
  intro rest
  induction rest with
  | nil =>
    intro hsuf lf
    unfold reSearchFrom
    rw [h lf [] hsuf]
    rfl
  | cons c r ih =>
    intro hsuf lf
    unfold reSearchFrom
    rw [h lf (c :: r) hsuf]
    exact ih ((List.suffix_cons c r).trans hsuf) (some c)

theorem reSearch_none_of (rx : Rx) (s : List Char)
    (h : ∀ (lf : Option Char) (v : List Char), v <:+ s → runRx rx ⟨lf, v⟩ = []) :
    reSearch rx s = none := by
  unfold reSearch
  exact reSearchFrom_none_of rx s h s (List.suffix_refl s) none

theorem lowerChar_nondigit {c : Char} (h : c.isDigit = false) :
    (lowerChar c == lowerChar '3') = false := by
  rw [show lowerChar '3' = '3' from rfl]
  unfold lowerChar
  split
  · next hc =>
    obtain ⟨h1, h2⟩ := hc
    have h1n : 65 ≤ c.toNat := h1
    have h2n : c.toNat ≤ 90 := h2
    have hv : (c.toNat + 32).isValidChar := by
      left
      omega
    have ht : (Char.ofNat (c.toNat + 32)).toNat = c.toNat + 32 := by
      unfold Char.ofNat
      rw [dif_pos hv]
      rfl
    rw [beq_eq_false_iff_ne]
    intro he
    have h3 := congrArg Char.toNat he
    rw [ht] at h3
    have h51 : ('3').toNat = 51 := rfl
    rw [h51] at h3
    omega
  · rw [beq_eq_false_iff_ne]
    intro he
    subst he
    simp [Char.isDigit] at h

theorem reqPred3_totalLine : ReqPred has3 rxTotalLine :=
  Or.inr (Or.inr (Or.inr (Or.inr (Or.inr (Or.inl
    (Or.inr (Or.inr (Or.inr (Or.inl
      (Or.inr (Or.inr (Or.inl (fun c hc => hc)))))))))))))

theorem reqPred3_totalSplit : ReqPred has3 rxTotalSplit :=
  Or.inr (Or.inr (Or.inr (Or.inr (Or.inr (Or.inr (Or.inl
    (Or.inr (Or.inl
      (Or.inr (Or.inr (Or.inl (fun c hc => hc))))))))))))

theorem reqPred3_totalImplied : ReqPred has3 rxTotalImplied :=
  Or.inr (Or.inr (Or.inr (Or.inr (Or.inr (Or.inr (Or.inl
    (Or.inr (Or.inl (Or.inl (fun c hc => hc))))))))))

/-- No character of the savings-line family is a (case-insensitive) `3`:
the filler lines are digit-free and the savings line's digits are `5`,
`0`, `0`. -/
theorem c4_no3 {a b : List Char}
    (ha : ∀ c ∈ a, c.isDigit = false) (hb : ∀ c ∈ b, c.isDigit = false) :
    ∀ c ∈ (a ++ c4Line ++ b), has3 c = false := by
  intro c hc
  rw [List.append_assoc, List.mem_append] at hc
  rcases hc with hc | hc
  · exact lowerChar_nondigit (ha c hc)
  · rw [List.mem_append] at hc
    rcases hc with hc | hc
    · have hl : ∀ x ∈ c4Line, has3 x = false := by decide
      exact hl c hc
    · exact lowerChar_nondigit (hb c hc)

theorem searchTotalLine_c4 {a b : List Char}
    (ha : ∀ c ∈ a, c.isDigit = false) (hb : ∀ c ∈ b, c.isDigit = false)
    (hlb : b = [] ∨ b.head? = some '\n') :
    reSearch rxTotalLine (a ++ c4Line ++ b) = none := by
  refine reSearch_none_of _ _ ?_
  intro lf v hv
  exact runRx_predFree reqPred3_totalLine
    (fun c hc => c4_no3 ha hb c (hv.subset hc))

theorem searchTotalSplit_c4 {a b : List Char}
    (ha : ∀ c ∈ a, c.isDigit = false) (hb : ∀ c ∈ b, c.isDigit = false)
    (hlb : b = [] ∨ b.head? = some '\n') :
    reSearch rxTotalSplit (a ++ c4Line ++ b) = none := by
  refine reSearch_none_of _ _ ?_
  intro lf v hv
  exact runRx_predFree reqPred3_totalSplit
    (fun c hc => c4_no3 ha hb c (hv.subset hc))

theorem searchTotalImplied_c4 {a b : List Char}
    (ha : ∀ c ∈ a, c.isDigit = false) (hb : ∀ c ∈ b, c.isDigit = false)
    (hlb : b = [] ∨ b.head? = some '\n') :
    reSearch rxTotalImplied (a ++ c4Line ++ b) = none := by
  refine reSearch_none_of _ _ ?_
  intro lf v hv
  exact runRx_predFree reqPred3_totalImplied
    (fun c hc => c4_no3 ha hb c (hv.subset hc))

theorem searchNetPay_c4 {a b : List Char}
    (ha : ∀ c ∈ a, c.isDigit = false) (hb : ∀ c ∈ b, c.isDigit = false)
    (hlb : b = [] ∨ b.head? = some '\n') :
    reSearch rxNetPay (a ++ c4Line ++ b) = none := by
  refine reSearch_none_of _ _ ?_
  intro lf v hv
  rw [List.eq_nil_iff_forall_not_mem]
  intro r hr
  exact netPay_refute ha hb hlb hv hr

theorem searchNetPayLoose_c4 {a b : List Char}
    (ha : ∀ c ∈ a, c.isDigit = false) (hb : ∀ c ∈ b, c.isDigit = false)
    (hlb : b = [] ∨ b.head? = some '\n') :
    reSearch rxNetPayLoose (a ++ c4Line ++ b) = none := by
  refine reSearch_none_of _ _ ?_
  intro lf v hv
  rw [List.eq_nil_iff_forall_not_mem]
  intro r hr
  exact netPayLoose_refute ha hb hlb hv hr

/-! ## Structure of `joinNl` and `splitOnNl` -/

theorem splitOnNl_nlFree : ∀ {s : List Char}, '\n' ∉ s → splitOnNl s = [s] := by
  intro s
  induction s with
  | nil => intro _; rfl
  | cons c r ih =>
    intro h
    unfold splitOnNl
    rw [if_neg (fun hc => h (by rw [← hc]; exact List.mem_cons_self c r))]
    rw [ih (fun hr => h (List.mem_cons_of_mem c hr))]

theorem splitOnNl_append_line : ∀ {x : List Char}, '\n' ∉ x → ∀ (y : List Char),
    splitOnNl (x ++ '\n' :: y) = x :: splitOnNl y := by
  intro x
  induction x with
  | nil =>
    intro _ y
    show splitOnNl ('\n' :: y) = [] :: splitOnNl y
    simp only [splitOnNl]
    rw [if_pos trivial]
  | cons c r ih =>
    intro h y
    rw [List.cons_append]
    simp only [splitOnNl]
    rw [if_neg (fun hc => h (by rw [← hc]; exact List.mem_cons_self c r))]
    rw [ih (fun hr => h (List.mem_cons_of_mem c hr)) y]

theorem joinNl_cons_ne {l : List Char} {ls : List (List Char)} (h : ls ≠ []) :
    joinNl (l :: ls) = l ++ '\n' :: joinNl ls := by
  cases ls with
  | nil => exact absurd rfl h
  | cons x xs => rfl

theorem mem_joinNl {c : Char} : ∀ {L : List (List Char)}, c ∈ joinNl L →
    (∃ l ∈ L, c ∈ l) ∨ c = '\n' := by
  intro L
  induction L with
  | nil => intro h; exact absurd h (by simp [joinNl])
  | cons l ls ih =>
    intro h
    cases ls with
    | nil => exact Or.inl ⟨l, List.mem_cons_self _ _, h⟩
    | cons x xs =>
      rw [joinNl_cons_ne (by simp), List.mem_append] at h
      rcases h with h | h
      · exact Or.inl ⟨l, List.mem_cons_self _ _, h⟩
      · rw [List.mem_cons] at h
        rcases h with h | h
        · exact Or.inr h
        · rcases ih h with ⟨l2, hl2, hc⟩ | h2
          · exact Or.inl ⟨l2, List.mem_cons_of_mem _ hl2, hc⟩
          · exact Or.inr h2

theorem joinNl_split : ∀ (L : List (List Char)), L ≠ [] → (∀ l ∈ L, '\n' ∉ l) →
    splitOnNl (joinNl L) = L := by
  intro L
  induction L with
  | nil => intro h _; exact absurd rfl h
  | cons l ls ih =>
    intro _ hnl
    cases ls with
    | nil => exact splitOnNl_nlFree (hnl l (List.mem_cons_self _ _))
    | cons x xs =>
      rw [joinNl_cons_ne (by simp)]
      rw [splitOnNl_append_line (hnl l (List.mem_cons_self _ _)) _]
      rw [ih (by simp) (fun m hm => hnl m (List.mem_cons_of_mem _ hm))]

theorem joinNl_decomp (mid : List Char) :
    ∀ (P Q : List (List Char)),
    ∃ a b, joinNl (P ++ mid :: Q) = a ++ mid ++ b ∧
      (∀ c ∈ a, (∃ l ∈ P, c ∈ l) ∨ c = '\n') ∧
      (∀ c ∈ b, (∃ l ∈ Q, c ∈ l) ∨ c = '\n') ∧
      (b = [] ∨ b.head? = some '\n') := by
  intro P
  induction P with
  | nil =>
    intro Q
    cases Q with
    | nil =>
      refine ⟨[], [], by simp [joinNl], by simp, by simp, Or.inl rfl⟩
    | cons q Qr =>
      refine ⟨[], '\n' :: joinNl (q :: Qr), by simp [joinNl_cons_ne], by simp, ?_,
        Or.inr rfl⟩
      intro c hc
      rw [List.mem_cons] at hc
      rcases hc with rfl | hc
      · exact Or.inr rfl
      · exact mem_joinNl hc
  | cons p Pr ih =>
    intro Q
    obtain ⟨a2, b2, heq, hpa, hqb, hbh⟩ := ih Q
    have hne : Pr ++ mid :: Q ≠ [] := by
      intro hco
      exact absurd (List.append_eq_nil.mp hco).2 (by simp)
    refine ⟨p ++ '\n' :: a2, b2, ?_, ?_, hqb, hbh⟩
    · rw [List.cons_append, joinNl_cons_ne hne, heq]
      simp [List.append_assoc]
    · intro c hc
      rw [List.mem_append] at hc
      rcases hc with hc | hc
      · exact Or.inl ⟨p, List.mem_cons_self _ _, hc⟩
      · rw [List.mem_cons] at hc
        rcases hc with rfl | hc
        · exact Or.inr rfl
        · rcases hpa c hc with ⟨l2, hl2, hcl⟩ | h2
          · exact Or.inl ⟨l2, List.mem_cons_of_mem _ hl2, hcl⟩
          · exact Or.inr h2

theorem mem_pySplitlines {l : List Char} {s : List Char}
    (h : l ∈ pySplitlines s) : l ∈ splitOnNl s := by
  unfold pySplitlines at h
  split at h
  · simp at h
  · have h2 : l ∈ (if (splitOnNl s).getLast? = some [] then
        (splitOnNl s).dropLast else splitOnNl s) := h
    split at h2
    · exact (List.dropLast_prefix _).subset h2
    · exact h2

/-! ## Steps 3a and 4 on texts whose only digits sit on the savings line -/

theorem findSome?_none {α β : Type} (f : α → Option β) :
    ∀ (l : List α), (∀ x ∈ l, f x = none) → l.findSome? f = none := by
  intro l
  induction l with
  | nil => intro _; rfl
  | cons x xs ih =>
    intro h
    rw [List.findSome?_cons]
    rw [h x (List.mem_cons_self _ _)]
    exact ih (fun y hy => h y (List.mem_cons_of_mem x hy))

theorem step3aScan_none {nxt : List Char}
    (h : (∀ c ∈ nxt, c.isDigit = false) ∨ nxt = c4Line) :
    step3aScanLine (pyStrip nxt) = none := by
  have hnum : is_numeric_only_line (pyStrip nxt) = false := by
    rcases h with hdf | rfl
    · exact numericOnly_digitFree (fun c hc => hdf c (mem_pyStrip hc))
    · decide
  unfold step3aScanLine
  rw [hnum]
  rfl

theorem totalStep3a_none {lines : List (List Char)}
    (h : ∀ l ∈ lines, (∀ c ∈ l, c.isDigit = false) ∨ l = c4Line) :
    totalStep3a lines = none := by
  unfold totalStep3a
  refine findSome?_none _ _ ?_
  intro i _
  by_cases hl : (reSearch rxLabelAnywhere (lowerStr (lines.getD i []))).isSome = true
  · rw [if_pos hl]
    refine findSome?_none _ _ ?_
    intro j _
    cases hj : lines.get? j with
    | none => rfl
    | some nxt =>
      have hmem : nxt ∈ lines := List.get?_mem hj
      exact step3aScan_none (h nxt hmem)
  · rw [if_neg hl]

theorem c4Line_ignore :
    IGNORE_TOTAL_CONTEXT.any
      (fun k => containsSub (pyStrip (lowerStr c4Line)) k.data) = true := by
  decide

theorem step4Line_cands (st : Step4State) (l : List Char)
    (h : (∀ c ∈ l, c.isDigit = false) ∨ l = c4Line) :
    (step4Line st l).candidates = st.candidates := by
  rcases h with hdf | rfl
  · unfold step4Line
    by_cases h1 : st.prevCtx > 0 ∧ is_numeric_only_line l = true
    · rw [if_pos h1]
    · rw [if_neg h1]
      by_cases h2 : IGNORE_TOTAL_CONTEXT.any
          (fun k => containsSub (pyStrip (lowerStr l)) k.data) = true
      · rw [if_pos h2]
      · rw [if_neg h2]
        rw [findIter_digitFree reqDigit_rxMoney hdf,
            findIter_digitFree reqDigit_rxSpacyDec hdf,
            findIter_digitFree reqDigit_rxSpacyPure hdf,
            findIter_digitFree reqDigit_rxSpacyAnySep hdf,
            reSearch_digitFree reqDigit_rxTailSplit hdf,
            reSearch_digitFree reqDigit_rxTailImplied hdf]
        simp
  · unfold step4Line
    have hnum : is_numeric_only_line c4Line = false := by decide
    rw [if_neg (fun hc => absurd hc.2 (by rw [hnum]; decide))]
    rw [if_pos c4Line_ignore]

theorem step4_fold :
    ∀ (lines : List (List Char)),
      (∀ l ∈ lines, (∀ c ∈ l, c.isDigit = false) ∨ l = c4Line) →
      ∀ st, (lines.foldl step4Line st).candidates = st.candidates := by
  intro lines
  induction lines with
  | nil => intro _ st; rfl
  | cons l ls ih =>
    intro h st
    rw [List.foldl_cons]
    rw [ih (fun x hx => h x (List.mem_cons_of_mem l hx)) (step4Line st l)]
    exact step4Line_cands st l (h l (List.mem_cons_self _ _))

theorem step4Candidates_nil {lines : List (List Char)}
    (h : ∀ l ∈ lines, (∀ c ∈ l, c.isDigit = false) ∨ l = c4Line) :
    step4Candidates lines = [] := by
  unfold step4Candidates
  exact step4_fold lines h _

/-! ## C4: negative-context exclusion of the savings line -/

set_option maxHeartbeats 1000000 in
/-- C4: for any text assembled from newline-free lines in which the line
`You saved $5.00` is the only line containing a digit (hence the only line
with a money-shaped token) while a generic `total` label occurs on some
other line, `extract_from_text` succeeds and resolves the total to a null
value — in particular the savings amount 5.00 is never chosen: the three
mangled labelled patterns each require a literal `3` that the text lacks,
step 3a rejects the savings line as not numeric-only, step 4 skips it
because `you saved` is an `_IGNORE_TOTAL_CONTEXT` marker, and both
net-pay scans are blocked by the letters of `saved`. -/
theorem C4_negative_context_exclusion (P Q : List (List Char))
    (hP : ∀ l ∈ P, ∀ c ∈ l, c.isDigit = false)
    (hQ : ∀ l ∈ Q, ∀ c ∈ l, c.isDigit = false)
    (hnP : ∀ l ∈ P, '\n' ∉ l) (hnQ : ∀ l ∈ Q, '\n' ∉ l)
    (hlab : ∃ l, l ∈ P ++ Q ∧ containsSub (lowerStr l) "total".data = true) :
    (extract_from_text (String.mk (joinNl (P ++ c4Line :: Q)))).map
      (fun o => o.total.value) = some none := by
  obtain ⟨a, b, heq, hpa, hqb, hbh⟩ := joinNl_decomp c4Line P Q
  have ha : ∀ c ∈ a, c.isDigit = false := by
    intro c hc
    rcases hpa c hc with ⟨l2, hl2, hcl⟩ | rfl
    · exact hP l2 hl2 c hcl
    · decide
  have hb2 : ∀ c ∈ b, c.isDigit = false := by
    intro c hc
    rcases hqb c hc with ⟨l2, hl2, hcl⟩ | rfl
    · exact hQ l2 hl2 c hcl
    · decide
  have hdata : (String.mk (joinNl (P ++ c4Line :: Q))).data =
      a ++ c4Line ++ b := heq
  have hlines : ∀ l ∈ pySplitlines (String.mk (joinNl (P ++ c4Line :: Q))).data,
      (∀ c ∈ l, c.isDigit = false) ∨ l = c4Line := by
    intro l hl
    have h2 : l ∈ splitOnNl (joinNl (P ++ c4Line :: Q)) := mem_pySplitlines hl
    have hnl : ∀ m ∈ P ++ c4Line :: Q, '\n' ∉ m := by
      intro m hm
      rw [List.mem_append] at hm
      rcases hm with hm | hm
      · exact hnP m hm
      · rw [List.mem_cons] at hm
        rcases hm with rfl | hm
        · decide
        · exact hnQ m hm
    rw [joinNl_split (P ++ c4Line :: Q)
        (fun hco => absurd (List.append_eq_nil.mp hco).2 (by simp)) hnl] at h2
    rw [List.mem_append] at h2
    rcases h2 with h2 | h2
    · exact Or.inl (hP l h2)
    · rw [List.mem_cons] at h2
      rcases h2 with rfl | h2
      · exact Or.inr rfl
      · exact Or.inl (hQ l h2)
  have hs1 : totalStep1 (String.mk (joinNl (P ++ c4Line :: Q))) = none := by
    unfold totalStep1
    rw [hdata, searchTotalLine_c4 ha hb2 hbh]
    rfl
  have hs2 : totalStep2 (String.mk (joinNl (P ++ c4Line :: Q))) = none := by
    unfold totalStep2
    rw [hdata, searchTotalSplit_c4 ha hb2 hbh]
    rfl
  have hs3 : reSearch rxTotalImplied
      (String.mk (joinNl (P ++ c4Line :: Q))).data = none := by
    rw [hdata]
    exact searchTotalImplied_c4 ha hb2 hbh
  have h3a := totalStep3a_none hlines
  have h4 := step4Candidates_nil hlines
  have htot : find_total_in_text (String.mk (joinNl (P ++ c4Line :: Q))) =
      some { raw := "", value := none, currency := none } := by
    unfold find_total_in_text totalStepsTail
    simp only [hs1, hs2, hs3, h3a, h4]
    rfl
  have hnp1 : reSearch rxNetPay (String.mk (joinNl (P ++ c4Line :: Q))).data
      = none := by
    rw [hdata]
    exact searchNetPay_c4 ha hb2 hbh
  have hnp2 : reSearch rxNetPayLoose (String.mk (joinNl (P ++ c4Line :: Q))).data
      = none := by
    rw [hdata]
    exact searchNetPayLoose_c4 ha hb2 hbh
  have hnet : find_netpay_in_text (String.mk (joinNl (P ++ c4Line :: Q)))
      = none := by
    unfold find_netpay_in_text
    simp only [hnp1, hnp2]
  unfold extract_from_text
  simp only [hnet, htot]
  rfl

/-- Witness for the C4 theorem: a two-line receipt whose first line is
`Total` and whose second line is `You saved $5.00`; the extraction
succeeds and the resolved total value is null. -/
theorem C4_negative_context_exclusion_witness :
    (extract_from_text
        (String.mk (joinNl (["Total".data] ++ c4Line :: [])))).map
      (fun o => o.total.value) = some none :=
  C4_negative_context_exclusion ["Total".data] []
    (by decide) (by decide) (by decide) (by decide)
    ⟨"Total".data, by decide, by decide⟩

end FinanceAdvisor
